import Mathlib

/-!
Verification of the secp256k1 library (curve group operations and the ECDSA
signature codec layer) against its natural-language specification.

The development shallowly embeds the Go source:

* `curve.go` — `splitK`, `naf`, the Jacobian-point addition/doubling routines
  (`AddNonConst`, `DoubleNonConst` and their specializations), and
  `ScalarBaseMultNonConst`.
* `signature.go` — `Signature.Serialize`, `ParseDERSignature`,
  `Signature.ExportCompact` and the core `sign` routine.

The field type `FieldVal` (integers modulo the field prime with deferred
reduction) and the scalar type `ModNScalar` (integers modulo the group order)
are not part of the sources available under `src/`; following the
specification, they are modelled as canonical residues: every operation
reduces immediately, `Normalize` is the identity, and `Equals` is equality.
Byte strings are modelled as `List ℕ` whose elements are below 256.
-/

/-- The secp256k1 field prime p = 2^256 - 2^32 - 977, from `ellipticadaptor.go`. -/
def fieldPrime : ℕ :=
  0xfffffffffffffffffffffffffffffffffffffffffffffffffffffffefffffc2f

/-- The secp256k1 group order n, from the curve parameters in `ellipticadaptor.go`. -/
def curveOrderN : ℕ :=
  0xfffffffffffffffffffffffffffffffebaaedce6af48a03bbfd25e8cd0364141

/-- Half of the group order, rounded down; `ModNScalar.IsOverHalfOrder`
compares against this value. -/
def halfOrder : ℕ := curveOrderN / 2

/-- The GLV endomorphism constant lambda, from `curve.go`. -/
def endomorphismLambda : ℤ :=
  0x5363ad4cc05c30e0a5261c028812645a122e22ea20816678df02967c1b23bd72

/-- The GLV endomorphism constant beta, from `curve.go`. -/
def endomorphismBeta : ℕ :=
  0x7ae96a2b657c07106e64479eac3434e99cf0497512f58995c1396c28719501ee

/-- The GLV decomposition constant a1, from `curve.go`. -/
def endomorphismA1 : ℤ := 0x3086d221a7d46bcde86c90e49284eb15

/-- The GLV decomposition constant b1 (a negative big integer), from `curve.go`. -/
def endomorphismB1 : ℤ := -0xe4437ed6010e88286f547fa90abfe4c3

/-- The GLV decomposition constant a2, from `curve.go`. -/
def endomorphismA2 : ℤ := 0x114ca50f7a8e2f3f657c1108d9d44cfd8

/-- The GLV decomposition constant b2, from `curve.go`. -/
def endomorphismB2 : ℤ := 0x3086d221a7d46bcde86c90e49284eb15

/-- Value of a big-endian byte string, the interpretation used by
`big.Int.SetBytes` and by the scalar/field `SetByteSlice` methods. -/
def beVal : List ℕ → ℕ
  | [] => 0
  | b :: t => b * 256 ^ t.length + beVal t

/-- Value of a little-endian byte string (used to reason about the loops that
walk a big-endian string from its least significant byte). -/
def leVal : List ℕ → ℕ
  | [] => 0
  | b :: t => b + 256 * leVal t

/-- Fuel-driven worker for `toBytesBEmin`; the fuel only serves termination
and any fuel at least the value itself is enough. -/
def natBytesAux : ℕ → ℕ → List ℕ
  | 0, _ => []
  | fuel+1, v => if v = 0 then [] else natBytesAux fuel (v / 256) ++ [v % 256]

/-- Minimal big-endian encoding of a natural number, with no leading zero
byte and the empty string for zero; this is the behaviour of
`big.Int.Bytes` used by `splitK` to return k1 and k2. -/
def toBytesBEmin (v : ℕ) : List ℕ := natBytesAux v v

theorem beVal_append (l₁ l₂ : List ℕ) :
    beVal (l₁ ++ l₂) = beVal l₁ * 256 ^ l₂.length + beVal l₂ := by
  induction l₁ with
  | nil => simp [beVal]
  | cons b t ih =>
    show beVal (b :: (t ++ l₂)) = _
    rw [beVal, ih, List.length_append, pow_add, beVal]
    ring

theorem beVal_natBytesAux (fuel v : ℕ) (h : v ≤ fuel) :
    beVal (natBytesAux fuel v) = v := by
  induction fuel generalizing v with
  | zero => interval_cases v; simp [natBytesAux, beVal]
  | succ fuel ih =>
    by_cases hv : v = 0
    · simp [natBytesAux, hv, beVal]
    · have hlt : v / 256 ≤ fuel := by omega
      simp only [natBytesAux, hv, if_false, beVal_append, ih _ hlt, beVal,
        List.length_cons, List.length_nil, pow_zero, pow_one, mul_one]
      omega

theorem beVal_toBytesBEmin (v : ℕ) : beVal (toBytesBEmin v) = v :=
  beVal_natBytesAux v v le_rfl

/-- The scalar decomposition `splitK` from `curve.go`: a balanced length-two
representation of k with explicit signs.  `big.Int.Div` performs Euclidean
division, which `Int.ediv` matches; `big.Int.Bytes` drops the sign, which is
returned separately via `big.Int.Sign`. -/
def splitK (k : ℕ) : List ℕ × List ℕ × ℤ × ℤ :=
  let bigIntK : ℤ := k
  let c1 := Int.ediv (endomorphismB2 * bigIntK) (curveOrderN : ℤ)
  let c2 := Int.ediv (endomorphismB1 * bigIntK) (curveOrderN : ℤ)
  let k1 := bigIntK - c1 * endomorphismA1 + c2 * endomorphismA2
  let k2 := c2 * endomorphismB2 - c1 * endomorphismB1
  (toBytesBEmin k1.natAbs, toBytesBEmin k2.natAbs, k1.sign, k2.sign)

/-- Claim C5: for every scalar k in [0, n), the decomposition
(k1, k2, sign1, sign2) returned by `splitK` satisfies the congruence
sign1·k1 + sign2·k2·lambda ≡ k (mod n), where k1 and k2 are the non-negative
integers encoded by the returned big-endian byte slices and lambda is the
fixed GLV endomorphism constant. -/
theorem splitK_congruence (k : ℕ) (hk : k < curveOrderN) :
    ((splitK k).2.2.1 * (beVal (splitK k).1 : ℤ) +
        (splitK k).2.2.2 * (beVal (splitK k).2.1 : ℤ) * endomorphismLambda) %
      (curveOrderN : ℤ) = (k : ℤ) := by
  have hA1 : (endomorphismA1 + endomorphismB1 * endomorphismLambda) %
      (curveOrderN : ℤ) = 0 := by decide
  have hA2 : (endomorphismA2 + endomorphismB2 * endomorphismLambda) %
      (curveOrderN : ℤ) = 0 := by decide
  obtain ⟨q1, hq1⟩ := Int.dvd_of_emod_eq_zero hA1
  obtain ⟨q2, hq2⟩ := Int.dvd_of_emod_eq_zero hA2
  simp only [splitK, beVal_toBytesBEmin, Int.sign_mul_natAbs]
  set c1 := Int.ediv (endomorphismB2 * (k : ℤ)) (curveOrderN : ℤ) with hc1
  set c2 := Int.ediv (endomorphismB1 * (k : ℤ)) (curveOrderN : ℤ) with hc2
  have hexpand :
      (k : ℤ) - c1 * endomorphismA1 + c2 * endomorphismA2 +
        (c2 * endomorphismB2 - c1 * endomorphismB1) * endomorphismLambda =
      (k : ℤ) + (curveOrderN : ℤ) * (c2 * q2 - c1 * q1) := by
    have e1 : endomorphismA1 = (curveOrderN : ℤ) * q1 -
        endomorphismB1 * endomorphismLambda := by linarith [hq1]
    have e2 : endomorphismA2 = (curveOrderN : ℤ) * q2 -
        endomorphismB2 * endomorphismLambda := by linarith [hq2]
    rw [e1, e2]; ring
  rw [hexpand, Int.add_mul_emod_self_left]
  have h0 : (0 : ℤ) ≤ (k : ℤ) := Int.ofNat_nonneg k
  have h1 : (k : ℤ) < (curveOrderN : ℤ) := by exact_mod_cast hk
  exact Int.emod_eq_of_lt h0 h1

/-- Witness for `splitK_congruence` at k = 5. -/
theorem splitK_congruence_witness :
    5 < curveOrderN ∧
      ((splitK 5).2.2.1 * (beVal (splitK 5).1 : ℤ) +
          (splitK 5).2.2.2 * (beVal (splitK 5).2.1 : ℤ) * endomorphismLambda) %
        (curveOrderN : ℤ) = (5 : ℤ) :=
  ⟨by decide, splitK_congruence 5 (by decide)⟩

/-- Fixed-width big-endian encoding of a natural number, most significant
byte first; this is `PutBytesUnchecked` (with width 32) applied to a
canonical scalar or field value. -/
def toBytesBE : ℕ → ℕ → List ℕ
  | 0, _ => []
  | len+1, v => toBytesBE len (v / 256) ++ [v % 256]

theorem toBytesBE_length (len v : ℕ) : (toBytesBE len v).length = len := by
  induction len generalizing v with
  | zero => rfl
  | succ len ih => simp [toBytesBE, ih]

/-- An ECDSA signature: the scalars r and s together with the recovery code
byte v, where 0xff marks a signature built without a recovery code
(`NewSignature` in `signature.go`). -/
structure Signature where
  r : ℕ
  s : ℕ
  v : ℕ
deriving DecidableEq

/-- The compact export `Signature.ExportCompact` from `signature.go`: the
local copy of S is conditionally negated (and the recovery code's oddness
bit flipped alongside), but the R and S fields that get written come from
the stored `sig.r` and `sig.s`, not from the negated copy. -/
def Signature.exportCompact (sig : Signature) (recoveryCodeFirst : Bool)
    (recoveryCodeOffset : ℕ) : List ℕ :=
  let sigS := sig.s
  let flip := halfOrder < sigS
  let v := if flip then sig.v ^^^ 1 else sig.v
  if recoveryCodeFirst then
    (v + recoveryCodeOffset) % 256 :: (toBytesBE 32 sig.r ++ toBytesBE 32 sig.s)
  else
    toBytesBE 32 sig.r ++ toBytesBE 32 sig.s ++ [(v + recoveryCodeOffset) % 256]

/-- Claim C10: for every signature whose s component exceeds n/2 and whose
recovery code v is in [0, 3], `ExportCompact` emits a recovery-code byte with
the oddness bit flipped (offset + (v XOR 1)) while the emitted 32-byte S
field still encodes the original high-S value s rather than n - s; and in
all cases the emitted R and S fields are exactly the 32-byte big-endian
encodings of the stored r and s. -/
theorem exportCompact_spec (sig : Signature) (offset : ℕ)
    (hs : halfOrder < sig.s) (hv : sig.v < 4) :
    (sig.exportCompact true offset =
        (offset + (sig.v ^^^ 1)) % 256 ::
          (toBytesBE 32 sig.r ++ toBytesBE 32 sig.s) ∧
      sig.exportCompact false offset =
        toBytesBE 32 sig.r ++ toBytesBE 32 sig.s ++
          [(offset + (sig.v ^^^ 1)) % 256]) ∧
    ∀ (sig' : Signature) (first : Bool) (off : ℕ),
      ((sig'.exportCompact first off).drop (if first then 1 else 0)).take 32 =
          toBytesBE 32 sig'.r ∧
        ((sig'.exportCompact first off).drop (if first then 33 else 32)).take 32 =
          toBytesBE 32 sig'.s := by
  refine ⟨⟨?_, ?_⟩, ?_⟩
  · simp [Signature.exportCompact, hs, Nat.add_comm]
  · simp [Signature.exportCompact, hs, Nat.add_comm]
  · intro sig' first off
    have hr : (toBytesBE 32 sig'.r).length = 32 := toBytesBE_length _ _
    have hsl : (toBytesBE 32 sig'.s).length = 32 := toBytesBE_length _ _
    cases first <;>
      simp [Signature.exportCompact, List.drop_append_eq_append_drop, hr, hsl,
        List.take_append_eq_append_take, List.take_of_length_le, Nat.le_of_eq hr,
        Nat.le_of_eq hsl]

/-- Witness for `exportCompact_spec` at a concrete high-S signature. -/
theorem exportCompact_spec_witness :
    halfOrder < (Signature.mk 1 (halfOrder + 1) 2).s ∧
      (Signature.mk 1 (halfOrder + 1) 2).v < 4 ∧
      (((Signature.mk 1 (halfOrder + 1) 2).exportCompact true 27 =
          (27 + ((Signature.mk 1 (halfOrder + 1) 2).v ^^^ 1)) % 256 ::
            (toBytesBE 32 (Signature.mk 1 (halfOrder + 1) 2).r ++
              toBytesBE 32 (Signature.mk 1 (halfOrder + 1) 2).s) ∧
        (Signature.mk 1 (halfOrder + 1) 2).exportCompact false 27 =
          toBytesBE 32 (Signature.mk 1 (halfOrder + 1) 2).r ++
            toBytesBE 32 (Signature.mk 1 (halfOrder + 1) 2).s ++
            [(27 + ((Signature.mk 1 (halfOrder + 1) 2).v ^^^ 1)) % 256]) ∧
      ∀ (sig' : Signature) (first : Bool) (off : ℕ),
        ((sig'.exportCompact first off).drop (if first then 1 else 0)).take 32 =
            toBytesBE 32 sig'.r ∧
          ((sig'.exportCompact first off).drop (if first then 33 else 32)).take 32 =
            toBytesBE 32 sig'.s) :=
  ⟨by decide, by decide,
    exportCompact_spec (Signature.mk 1 (halfOrder + 1) 2) 27 (by decide) (by decide)⟩

/-- Modelled from the spec: `FieldVal` represents an integer modulo the field
prime; with deferred reduction and magnitudes stripped away (the `FieldVal`
source is not under `src/`), addition is addition modulo p. -/
def fieldAdd (a b : ℕ) : ℕ := (a + b) % fieldPrime

/-- Modelled from the spec: `FieldVal` multiplication modulo p. -/
def fieldMul (a b : ℕ) : ℕ := a * b % fieldPrime

/-- Modelled from the spec: `FieldVal.Square`, squaring modulo p. -/
def fieldSquare (a : ℕ) : ℕ := a * a % fieldPrime

/-- Modelled from the spec: `FieldVal.Negate`, negation modulo p. -/
def fieldNeg (a : ℕ) : ℕ := (fieldPrime - a % fieldPrime) % fieldPrime

/-- Modelled from the spec: `FieldVal.MulInt`, multiplication by a small
integer modulo p. -/
def fieldMulInt (k a : ℕ) : ℕ := k * a % fieldPrime

/-- Modelled from the spec: `FieldVal.AddInt`, addition of a small integer
modulo p. -/
def fieldAddInt (a k : ℕ) : ℕ := (a + k) % fieldPrime

/-- A point on the secp256k1 curve in Jacobian projective coordinates, with
the field values modelled as canonical residues (`JacobianPoint` in
`curve.go`). -/
structure JacobianPoint where
  X : ℕ
  Y : ℕ
  Z : ℕ
deriving DecidableEq

/-- Whether the point is one of the two accepted representations of the
point at infinity: Z = 0, or X = 0 and Y = 0. -/
def JacobianPoint.isInfinity (p : JacobianPoint) : Prop :=
  (p.X = 0 ∧ p.Y = 0) ∨ p.Z = 0

instance (p : JacobianPoint) : Decidable p.isInfinity := by
  unfold JacobianPoint.isInfinity; infer_instance

/-- Point doubling for Z = 1 (`doubleZ1EqualsOne` in `curve.go`):
A = X1^2, B = Y1^2, C = B^2, D = 2*((X1+B)^2-A-C), E = 3*A, F = E^2,
X3 = F-2*D, Y3 = E*(D-X3)-8*C, Z3 = 2*Y1. -/
def doubleZ1EqualsOne (p : JacobianPoint) : JacobianPoint :=
  let a := fieldSquare p.X
  let b := fieldSquare p.Y
  let c := fieldSquare b
  let bb := fieldSquare (fieldAdd b p.X)
  let d := fieldMulInt 2 (fieldAdd bb (fieldNeg (fieldAdd a c)))
  let e := fieldMulInt 3 a
  let f := fieldSquare e
  let x3 := fieldAdd f (fieldNeg (fieldMulInt 2 d))
  let f2 := fieldAdd (fieldNeg x3) d
  let y3 := fieldAdd (fieldMul f2 e) (fieldNeg (fieldMulInt 8 c))
  ⟨x3, y3, fieldMulInt 2 p.Y⟩

/-- Generic point doubling (`doubleGeneric` in `curve.go`); identical to the
Z = 1 case except Z3 = 2*Y1*Z1. -/
def doubleGeneric (p : JacobianPoint) : JacobianPoint :=
  let a := fieldSquare p.X
  let b := fieldSquare p.Y
  let c := fieldSquare b
  let bb := fieldSquare (fieldAdd b p.X)
  let d := fieldMulInt 2 (fieldAdd bb (fieldNeg (fieldAdd a c)))
  let e := fieldMulInt 3 a
  let f := fieldSquare e
  let x3 := fieldAdd f (fieldNeg (fieldMulInt 2 d))
  let f2 := fieldAdd (fieldNeg x3) d
  let y3 := fieldAdd (fieldMul f2 e) (fieldNeg (fieldMulInt 8 c))
  ⟨x3, y3, fieldMulInt 2 (fieldMul p.Y p.Z)⟩

/-- Point doubling dispatcher `DoubleNonConst` from `curve.go`: doubling a
point with Y = 0 or Z = 0 yields the point at infinity with all coordinates
zeroed; otherwise dispatch on Z = 1. -/
def DoubleNonConst (p : JacobianPoint) : JacobianPoint :=
  if p.Y = 0 ∨ p.Z = 0 then ⟨0, 0, 0⟩
  else if p.Z = 1 then doubleZ1EqualsOne p
  else doubleGeneric p

/-- Point addition for Z1 = Z2 = 1 (`addZ1AndZ2EqualsOne` in `curve.go`),
including the equal-x dispatch to doubling or the point at infinity. -/
def addZ1AndZ2EqualsOne (p1 p2 : JacobianPoint) : JacobianPoint :=
  if p1.X = p2.X then
    if p1.Y = p2.Y then DoubleNonConst p1 else ⟨0, 0, 0⟩
  else
    let h := fieldAdd (fieldNeg p1.X) p2.X
    let i := fieldMulInt 4 (fieldSquare h)
    let j := fieldMul h i
    let r := fieldMulInt 2 (fieldAdd (fieldNeg p1.Y) p2.Y)
    let v := fieldMul p1.X i
    let x3 := fieldAdd (fieldAdd (fieldSquare r) (fieldNeg j))
      (fieldNeg (fieldMulInt 2 v))
    let y3 := fieldAdd (fieldMul (fieldAdd v (fieldNeg x3)) r)
      (fieldNeg (fieldMulInt 2 (fieldMul j p1.Y)))
    ⟨x3, y3, fieldMulInt 2 h⟩

/-- Point addition for equal Z values (`addZ1EqualsZ2` in `curve.go`). -/
def addZ1EqualsZ2 (p1 p2 : JacobianPoint) : JacobianPoint :=
  if p1.X = p2.X then
    if p1.Y = p2.Y then DoubleNonConst p1 else ⟨0, 0, 0⟩
  else
    let a := fieldAdd (fieldNeg p1.X) p2.X
    let b := fieldSquare a
    let c := fieldAdd (fieldNeg p1.Y) p2.Y
    let d := fieldSquare c
    let e := fieldMul p1.X b
    let f := fieldMul p2.X b
    let x3 := fieldAdd (fieldNeg (fieldAdd e f)) d
    let y3 := fieldAdd (fieldMul (fieldAdd e (fieldNeg x3)) c)
      (fieldNeg (fieldMul p1.Y (fieldAdd f (fieldNeg e))))
    ⟨x3, y3, fieldMul p1.Z a⟩

/-- Point addition when the second point has Z = 1 (`addZ2EqualsOne` in
`curve.go`); the first point's coordinates are compared against
U2 = X2*Z1^2 and S2 = Y2*Z1^3. -/
def addZ2EqualsOne (p1 p2 : JacobianPoint) : JacobianPoint :=
  let z1z1 := fieldSquare p1.Z
  let u2 := fieldMul p2.X z1z1
  let s2 := fieldMul (fieldMul p2.Y z1z1) p1.Z
  if p1.X = u2 then
    if p1.Y = s2 then DoubleNonConst p1 else ⟨0, 0, 0⟩
  else
    let h := fieldAdd u2 (fieldNeg p1.X)
    let hh := fieldSquare h
    let i := fieldMulInt 4 hh
    let j := fieldMul h i
    let r := fieldMulInt 2 (fieldAdd s2 (fieldNeg p1.Y))
    let rr := fieldSquare r
    let v := fieldMul p1.X i
    let x3 := fieldAdd (fieldNeg (fieldAdd j (fieldMulInt 2 v))) rr
    let y3 := fieldAdd (fieldMul (fieldAdd v (fieldNeg x3)) r)
      (fieldNeg (fieldMulInt 2 (fieldMul p1.Y j)))
    let z3 := fieldAdd (fieldSquare (fieldAdd p1.Z h))
      (fieldNeg (fieldAdd z1z1 hh))
    ⟨x3, y3, z3⟩

/-- Generic point addition (`addGeneric` in `curve.go`). -/
def addGeneric (p1 p2 : JacobianPoint) : JacobianPoint :=
  let z1z1 := fieldSquare p1.Z
  let z2z2 := fieldSquare p2.Z
  let u1 := fieldMul p1.X z2z2
  let u2 := fieldMul p2.X z1z1
  let s1 := fieldMul (fieldMul p1.Y z2z2) p2.Z
  let s2 := fieldMul (fieldMul p2.Y z1z1) p1.Z
  if u1 = u2 then
    if s1 = s2 then DoubleNonConst p1 else ⟨0, 0, 0⟩
  else
    let h := fieldAdd u2 (fieldNeg u1)
    let i := fieldSquare (fieldMulInt 2 h)
    let j := fieldMul h i
    let r := fieldMulInt 2 (fieldAdd s2 (fieldNeg s1))
    let rr := fieldSquare r
    let v := fieldMul u1 i
    let x3 := fieldAdd (fieldNeg (fieldAdd j (fieldMulInt 2 v))) rr
    let y3 := fieldAdd (fieldMul (fieldAdd v (fieldNeg x3)) r)
      (fieldNeg (fieldMulInt 2 (fieldMul s1 j)))
    let z3 := fieldMul (fieldAdd (fieldSquare (fieldAdd p1.Z p2.Z))
      (fieldNeg (fieldAdd z1z1 z2z2))) h
    ⟨x3, y3, z3⟩

/-- Point addition dispatcher `AddNonConst` from `curve.go`: either summand
that represents the point at infinity (Z = 0, or X = 0 and Y = 0) makes the
result a copy of the other summand; otherwise dispatch on the Z values. -/
def AddNonConst (p1 p2 : JacobianPoint) : JacobianPoint :=
  if (p1.X = 0 ∧ p1.Y = 0) ∨ p1.Z = 0 then p2
  else if (p2.X = 0 ∧ p2.Y = 0) ∨ p2.Z = 0 then p1
  else if p1.Z = 1 ∧ p2.Z = 1 then addZ1AndZ2EqualsOne p1 p2
  else if p1.Z = p2.Z then addZ1EqualsZ2 p1 p2
  else if p2.Z = 1 then addZ2EqualsOne p1 p2
  else addGeneric p1 p2

/-- Counterexample to claim C8 as stated: the point P = (1, 1, 0) is itself a
representation of the point at infinity (Z = 0), and adding the infinity
representation (0, 0, 1) to it yields (0, 0, 1), not P unchanged. -/
theorem addNonConst_identity_counterexample :
    (JacobianPoint.mk 0 0 1).isInfinity ∧
      AddNonConst ⟨1, 1, 0⟩ ⟨0, 0, 1⟩ = ⟨0, 0, 1⟩ ∧
      (JacobianPoint.mk 0 0 1) ≠ ⟨1, 1, 0⟩ := by
  refine ⟨Or.inl ⟨rfl, rfl⟩, ?_, by decide⟩
  simp [AddNonConst]

/-- Claim C8 (amended): for every Jacobian point P that is not itself a
representation of the point at infinity, adding the point at infinity in
either of its two accepted representations (Z = 0, or X = 0 and Y = 0) on
either side yields P unchanged; doubling a point with Y = 0 or Z = 0 emits
the all-zero point (so Z = 0); and whenever two non-infinity points with
equal x and distinct y coordinates (in the sense checked by the dispatched
addition routine) are added, the emitted result is the all-zero point, so
the point at infinity is emitted with Z = 0. -/
theorem addDouble_infinity_spec :
    (∀ p q : JacobianPoint, ¬p.isInfinity → q.isInfinity →
        AddNonConst q p = p ∧ AddNonConst p q = p) ∧
      (∀ p : JacobianPoint, p.Y = 0 ∨ p.Z = 0 → DoubleNonConst p = ⟨0, 0, 0⟩) ∧
      (∀ p1 p2 : JacobianPoint, ¬p1.isInfinity → ¬p2.isInfinity →
        p1.Z = p2.Z → p1.X = p2.X → p1.Y ≠ p2.Y →
        AddNonConst p1 p2 = ⟨0, 0, 0⟩) ∧
      (∀ p1 p2 : JacobianPoint, ¬p1.isInfinity → ¬p2.isInfinity →
        p1.Z ≠ p2.Z → p2.Z = 1 →
        p1.X = fieldMul p2.X (fieldSquare p1.Z) →
        p1.Y ≠ fieldMul (fieldMul p2.Y (fieldSquare p1.Z)) p1.Z →
        AddNonConst p1 p2 = ⟨0, 0, 0⟩) ∧
      (∀ p1 p2 : JacobianPoint, ¬p1.isInfinity → ¬p2.isInfinity →
        p1.Z ≠ p2.Z → p2.Z ≠ 1 →
        fieldMul p1.X (fieldSquare p2.Z) = fieldMul p2.X (fieldSquare p1.Z) →
        fieldMul (fieldMul p1.Y (fieldSquare p2.Z)) p2.Z ≠
          fieldMul (fieldMul p2.Y (fieldSquare p1.Z)) p1.Z →
        AddNonConst p1 p2 = ⟨0, 0, 0⟩) := by
  refine ⟨?_, ?_, ?_, ?_, ?_⟩
  · intro p q hp hq
    unfold JacobianPoint.isInfinity at hp hq
    constructor
    · unfold AddNonConst
      rw [if_pos hq]
    · unfold AddNonConst
      rw [if_neg hp, if_pos hq]
  · intro p hp
    unfold DoubleNonConst
    rw [if_pos hp]
  · intro p1 p2 h1 h2 hz hx hy
    unfold JacobianPoint.isInfinity at h1 h2
    unfold AddNonConst
    rw [if_neg h1, if_neg h2]
    by_cases hone : p1.Z = 1 ∧ p2.Z = 1
    · rw [if_pos hone]
      unfold addZ1AndZ2EqualsOne
      rw [if_pos hx, if_neg hy]
    · rw [if_neg hone, if_pos hz]
      unfold addZ1EqualsZ2
      rw [if_pos hx, if_neg hy]
  · intro p1 p2 h1 h2 hz hz2 hx hy
    unfold JacobianPoint.isInfinity at h1 h2
    unfold AddNonConst
    have hone : ¬(p1.Z = 1 ∧ p2.Z = 1) := by
      rintro ⟨ha, hb⟩; exact hz (ha.trans hb.symm)
    rw [if_neg h1, if_neg h2, if_neg hone, if_neg hz, if_pos hz2]
    unfold addZ2EqualsOne
    rw [if_pos hx, if_neg hy]
  · intro p1 p2 h1 h2 hz hz2 hx hy
    unfold JacobianPoint.isInfinity at h1 h2
    unfold AddNonConst
    have hone : ¬(p1.Z = 1 ∧ p2.Z = 1) := fun h => hz2 h.2
    rw [if_neg h1, if_neg h2, if_neg hone, if_neg hz, if_neg hz2]
    unfold addGeneric
    rw [if_pos hx, if_neg hy]

/-- Witness for `addDouble_infinity_spec`, instantiating every part at
concrete points. -/
theorem addDouble_infinity_spec_witness :
    (AddNonConst ⟨0, 0, 0⟩ ⟨1, 2, 3⟩ = ⟨1, 2, 3⟩ ∧
        AddNonConst ⟨1, 2, 3⟩ ⟨0, 0, 0⟩ = ⟨1, 2, 3⟩) ∧
      DoubleNonConst ⟨5, 0, 1⟩ = ⟨0, 0, 0⟩ ∧
      AddNonConst ⟨1, 2, 1⟩ ⟨1, 3, 1⟩ = ⟨0, 0, 0⟩ ∧
      AddNonConst ⟨4, 5, 2⟩ ⟨1, 1, 1⟩ = ⟨0, 0, 0⟩ ∧
      AddNonConst ⟨4, 1, 2⟩ ⟨9, 1, 3⟩ = ⟨0, 0, 0⟩ :=
  ⟨addDouble_infinity_spec.1 ⟨1, 2, 3⟩ ⟨0, 0, 0⟩ (by decide) (by decide),
    addDouble_infinity_spec.2.1 ⟨5, 0, 1⟩ (by decide),
    addDouble_infinity_spec.2.2.1 ⟨1, 2, 1⟩ ⟨1, 3, 1⟩ (by decide) (by decide)
      (by decide) (by decide) (by decide),
    addDouble_infinity_spec.2.2.2.1 ⟨4, 5, 2⟩ ⟨1, 1, 1⟩ (by decide) (by decide)
      (by decide) (by decide) (by decide) (by decide),
    addDouble_infinity_spec.2.2.2.2 ⟨4, 1, 2⟩ ⟨9, 1, 3⟩ (by decide) (by decide)
      (by decide) (by decide) (by decide) (by decide)⟩

/-- Fuel-driven modular exponentiation by squaring; any fuel at least the
exponent is enough, since the exponent at least halves each step. -/
def powModAux (m : ℕ) : ℕ → ℕ → ℕ → ℕ
  | 0, _, _ => 1 % m
  | fuel+1, b, e =>
    if e = 0 then 1 % m
    else
      let r := powModAux m fuel (b * b % m) (e / 2)
      if e % 2 = 1 then r * b % m else r

/-- Modular exponentiation b^e mod m. -/
def powMod (m b e : ℕ) : ℕ := powModAux m e b e

/-- Modelled from the spec: `FieldVal.Inverse` computes the multiplicative
inverse via Fermat's little theorem as v^(p-2) mod p (the `FieldVal` source
is not under `src/`). -/
def fieldInverse (a : ℕ) : ℕ := powMod fieldPrime a (fieldPrime - 2)

/-- Modelled from the spec: `ModNScalar.InverseValNonConst` computes the
multiplicative inverse modulo the group order (binary extended GCD in the
source, which is not under `src/`); modelled via Fermat as s^(n-2) mod n. -/
def modNInverse (s : ℕ) : ℕ := powMod curveOrderN s (curveOrderN - 2)

/-- The affine conversion `JacobianPoint.ToAffine` from `curve.go`:
X/Z^2 and Y/Z^3 with Z set to 1. -/
def JacobianPoint.toAffine (p : JacobianPoint) : JacobianPoint :=
  let zInv := fieldInverse p.Z
  let tempZ := fieldSquare zInv
  ⟨fieldMul p.X tempZ, fieldMul p.Y (fieldMul tempZ zInv), 1⟩

/-- The table-driven base-point multiplication `ScalarBaseMultNonConst` from
`curve.go`, parameterized by the byte-point table.  The table contents come
from the compressed blob `compressedBytePoints`, which is not under `src/`;
the loop walks the 32 big-endian bytes of k, looks up the (x, y) entry for
each (byte position, byte value) pair, and accumulates with `AddNonConst`
using Z = 1 for each table point. -/
def ScalarBaseMultNonConst (table : ℕ → ℕ → ℕ × ℕ) (k : ℕ) : JacobianPoint :=
  (toBytesBE 32 k).enum.foldl
    (fun q ib => AddNonConst q ⟨(table ib.1 ib.2).1, (table ib.1 ib.2).2, 1⟩)
    ⟨0, 0, 0⟩

/-- The conversion `fieldToModNScalar` from `signature.go`: reduce a
canonical field value modulo the group order and report whether it
overflowed (was at least n). -/
def fieldToModNScalar (v : ℕ) : ℕ × Bool :=
  (v % curveOrderN, decide (curveOrderN ≤ v))

/-- Modelled from the spec: `ModNScalar.SetByteSlice` interprets a byte
string as a big-endian integer, truncating to the low 32 bytes, and reduces
it modulo the group order (the `ModNScalar` source is not under `src/`). -/
def setByteSliceModN (l : List ℕ) : ℕ :=
  beVal l % 2 ^ 256 % curveOrderN

/-- The core ECDSA signing routine `sign` from `signature.go`,
parameterized by the byte-point table used for k*G: compute the affine
nonce point, derive r and the recovery code, compute s, and normalize to
low-S while flipping the recovery code's oddness bit. -/
def sign (table : ℕ → ℕ → ℕ × ℕ) (privKey nonce : ℕ) (hash : List ℕ) :
    Option Signature :=
  let kG := (ScalarBaseMultNonConst table nonce).toAffine
  let rv := fieldToModNScalar kG.X
  if rv.1 = 0 then none
  else
    let pubKeyRecoveryCode := (if rv.2 then 2 else 0) ||| kG.Y % 2
    let e := setByteSliceModN hash
    let kinv := modNInverse nonce
    let s := (privKey * rv.1 % curveOrderN + e) % curveOrderN * kinv % curveOrderN
    if s = 0 then none
    else if halfOrder < s then
      some ⟨rv.1, (curveOrderN - s) % curveOrderN, pubKeyRecoveryCode ^^^ 1⟩
    else some ⟨rv.1, s, pubKeyRecoveryCode⟩

/-- Claim C7: whenever `sign` returns a signature (r, s, v), then
r = x(kG) mod n and r is nonzero, s is nonzero and at most n/2, the recovery
code v is in [0, 3], v's bit 1 is set exactly when the x-coordinate of the
nonce point kG was at least n, and v's bit 0 equals the oddness of kG's
y-coordinate, flipped exactly when s was replaced by n - s during low-S
normalization. -/
theorem sign_invariants (table : ℕ → ℕ → ℕ × ℕ) (d k : ℕ) (hash : List ℕ)
    (r s v : ℕ) (h : sign table d k hash = some ⟨r, s, v⟩) :
    r = (ScalarBaseMultNonConst table k).toAffine.X % curveOrderN ∧
      r ≠ 0 ∧ s ≠ 0 ∧ s ≤ halfOrder ∧ v < 4 ∧
      (v / 2 = if curveOrderN ≤ (ScalarBaseMultNonConst table k).toAffine.X
        then 1 else 0) ∧
      ((d * r % curveOrderN + setByteSliceModN hash) % curveOrderN *
            modNInverse k % curveOrderN ≤ halfOrder →
        s = (d * r % curveOrderN + setByteSliceModN hash) % curveOrderN *
            modNInverse k % curveOrderN ∧
          v % 2 = (ScalarBaseMultNonConst table k).toAffine.Y % 2) ∧
      (halfOrder < (d * r % curveOrderN + setByteSliceModN hash) % curveOrderN *
            modNInverse k % curveOrderN →
        s = curveOrderN -
            (d * r % curveOrderN + setByteSliceModN hash) % curveOrderN *
              modNInverse k % curveOrderN ∧
          v % 2 = 1 - (ScalarBaseMultNonConst table k).toAffine.Y % 2) := by
  rcases hkg : (ScalarBaseMultNonConst table k).toAffine with ⟨gx, gy, gz⟩
  unfold sign at h
  rw [hkg] at h
  dsimp only at h ⊢
  simp only [show ∀ x : ℕ,
    fieldToModNScalar x = (x % curveOrderN, decide (curveOrderN ≤ x)) from
    fun _ => rfl] at h
  have hm2 : gy % 2 < 2 := by omega
  have hnodd : curveOrderN = 2 * halfOrder + 1 := by decide
  have hlt4 : ∀ (b : Bool), ∀ m < 2, ((if b then 2 else 0) ||| m) < 4 := by decide
  have hdiv : ∀ (b : Bool), ∀ m < 2,
      ((if b then 2 else 0) ||| m) / 2 = if b then 1 else 0 := by decide
  have hmod : ∀ (b : Bool), ∀ m < 2, ((if b then 2 else 0) ||| m) % 2 = m := by decide
  have hxlt4 : ∀ (b : Bool), ∀ m < 2,
      (((if b then 2 else 0) ||| m) ^^^ 1) < 4 := by decide
  have hxdiv : ∀ (b : Bool), ∀ m < 2,
      (((if b then 2 else 0) ||| m) ^^^ 1) / 2 = if b then 1 else 0 := by decide
  have hxmod : ∀ (b : Bool), ∀ m < 2,
      (((if b then 2 else 0) ||| m) ^^^ 1) % 2 = 1 - m := by decide
  by_cases hr0 : gx % curveOrderN = 0
  · rw [if_pos hr0] at h; exact Option.noConfusion h
  rw [if_neg hr0] at h
  set s0 := (d * (gx % curveOrderN) % curveOrderN + setByteSliceModN hash) %
      curveOrderN * modNInverse k % curveOrderN with hs0def
  have hs0lt : s0 < curveOrderN := by
    rw [hs0def]; exact Nat.mod_lt _ (by decide)
  by_cases hs0z : s0 = 0
  · rw [if_pos hs0z] at h; exact Option.noConfusion h
  rw [if_neg hs0z] at h
  by_cases hhalf : halfOrder < s0
  · rw [if_pos hhalf] at h
    injection h with h'
    injection h' with h1 h2 h3
    subst h1; subst h2; subst h3
    rw [← hs0def]
    refine ⟨rfl, hr0, ?_, ?_, hxlt4 _ _ hm2, ?_, ?_, ?_⟩
    · rw [Nat.mod_eq_of_lt (by omega)]; omega
    · rw [Nat.mod_eq_of_lt (by omega)]; omega
    · rw [hxdiv _ _ hm2]; simp only [decide_eq_true_eq]
    · intro hc; omega
    · intro _
      exact ⟨Nat.mod_eq_of_lt (by omega), hxmod _ _ hm2⟩
  · rw [if_neg hhalf] at h
    injection h with h'
    injection h' with h1 h2 h3
    subst h1; subst h2; subst h3
    rw [← hs0def]
    refine ⟨rfl, hr0, hs0z, by omega, hlt4 _ _ hm2, ?_, ?_, ?_⟩
    · rw [hdiv _ _ hm2]; simp only [decide_eq_true_eq]
    · intro _
      exact ⟨rfl, hmod _ _ hm2⟩
    · intro hc; omega

set_option maxRecDepth 100000 in
/-- Witness for `sign_invariants` at a concrete table, key, nonce and hash. -/
theorem sign_invariants_witness :
    sign (fun _ _ => (1, 2)) 1 1 [1] =
        some ⟨0xbd56eb057a8cfdcb6dc1e18bfd81a648e87866ad58f6abf582a60f94c2a6d37c,
          0x42a914fa85730234923e1e74027e59b5d23676395651f4463d2c4ef80d8f6dc4, 0⟩ ∧
      (0xbd56eb057a8cfdcb6dc1e18bfd81a648e87866ad58f6abf582a60f94c2a6d37c =
          (ScalarBaseMultNonConst (fun _ _ => (1, 2)) 1).toAffine.X % curveOrderN ∧
        (0xbd56eb057a8cfdcb6dc1e18bfd81a648e87866ad58f6abf582a60f94c2a6d37c : ℕ) ≠ 0 ∧
        (0x42a914fa85730234923e1e74027e59b5d23676395651f4463d2c4ef80d8f6dc4 : ℕ) ≠ 0 ∧
        0x42a914fa85730234923e1e74027e59b5d23676395651f4463d2c4ef80d8f6dc4 ≤ halfOrder ∧
        (0 : ℕ) < 4 ∧
        ((0 : ℕ) / 2 = if curveOrderN ≤
            (ScalarBaseMultNonConst (fun _ _ => (1, 2)) 1).toAffine.X then 1 else 0) ∧
        ((1 * 0xbd56eb057a8cfdcb6dc1e18bfd81a648e87866ad58f6abf582a60f94c2a6d37c %
              curveOrderN + setByteSliceModN [1]) % curveOrderN *
              modNInverse 1 % curveOrderN ≤ halfOrder →
          0x42a914fa85730234923e1e74027e59b5d23676395651f4463d2c4ef80d8f6dc4 =
              (1 * 0xbd56eb057a8cfdcb6dc1e18bfd81a648e87866ad58f6abf582a60f94c2a6d37c %
                curveOrderN + setByteSliceModN [1]) % curveOrderN *
                modNInverse 1 % curveOrderN ∧
            (0 : ℕ) % 2 =
              (ScalarBaseMultNonConst (fun _ _ => (1, 2)) 1).toAffine.Y % 2) ∧
        (halfOrder <
            (1 * 0xbd56eb057a8cfdcb6dc1e18bfd81a648e87866ad58f6abf582a60f94c2a6d37c %
              curveOrderN + setByteSliceModN [1]) % curveOrderN *
              modNInverse 1 % curveOrderN →
          0x42a914fa85730234923e1e74027e59b5d23676395651f4463d2c4ef80d8f6dc4 =
              curveOrderN -
                (1 * 0xbd56eb057a8cfdcb6dc1e18bfd81a648e87866ad58f6abf582a60f94c2a6d37c %
                  curveOrderN + setByteSliceModN [1]) % curveOrderN *
                  modNInverse 1 % curveOrderN ∧
            (0 : ℕ) % 2 =
              1 - (ScalarBaseMultNonConst (fun _ _ => (1, 2)) 1).toAffine.Y % 2)) :=
  ⟨by decide, sign_invariants (fun _ _ => (1, 2)) 1 1 [1]
    0xbd56eb057a8cfdcb6dc1e18bfd81a648e87866ad58f6abf582a60f94c2a6d37c
    0x42a914fa85730234923e1e74027e59b5d23676395651f4463d2c4ef80d8f6dc4 0 (by decide)⟩

/-- The signature-related error kinds from the package's error taxonomy
(`ErrSigTooShort` etc.); only the kinds `ParseDERSignature` can produce are
modelled. -/
inductive ErrorKind where
  | SigTooShort
  | SigTooLong
  | SigInvalidSeqID
  | SigInvalidDataLen
  | SigMissingSTypeID
  | SigMissingSLen
  | SigInvalidSLen
  | SigInvalidRIntID
  | SigZeroRLen
  | SigNegativeR
  | SigTooMuchRPadding
  | SigRIsZero
  | SigRTooBig
  | SigInvalidSIntID
  | SigZeroSLen
  | SigNegativeS
  | SigTooMuchSPadding
  | SigSIsZero
  | SigSTooBig
deriving DecidableEq

/-- The DER parser `ParseDERSignature` from `signature.go`, translated check
by check in source order.  Indexing is modelled with `List.getD`; every
access the source performs is within bounds thanks to the preceding length
checks.  `SetByteSlice` truncates to the low 32 bytes before reducing modulo
n, hence the `% 2^256` in the overflow checks (the explicit length check
makes it vacuous on this path, as the source comments note). -/
def parseDERSignature (sig : List ℕ) : Except ErrorKind Signature :=
  let sigLen := sig.length
  if sigLen < 8 then .error .SigTooShort
  else if 72 < sigLen then .error .SigTooLong
  else if sig.getD 0 0 ≠ 48 then .error .SigInvalidSeqID
  else if sig.getD 1 0 ≠ sigLen - 2 then .error .SigInvalidDataLen
  else
    let rLen := sig.getD 3 0
    let sTypeOffset := 4 + rLen
    let sLenOffset := sTypeOffset + 1
    if sigLen ≤ sTypeOffset then .error .SigMissingSTypeID
    else if sigLen ≤ sLenOffset then .error .SigMissingSLen
    else
      let sOffset := sLenOffset + 1
      let sLen := sig.getD sLenOffset 0
      if sOffset + sLen ≠ sigLen then .error .SigInvalidSLen
      else if sig.getD 2 0 ≠ 2 then .error .SigInvalidRIntID
      else if rLen = 0 then .error .SigZeroRLen
      else if sig.getD 4 0 &&& 128 ≠ 0 then .error .SigNegativeR
      else if 1 < rLen ∧ sig.getD 4 0 = 0 ∧ sig.getD 5 0 &&& 128 = 0 then
        .error .SigTooMuchRPadding
      else if sig.getD sTypeOffset 0 ≠ 2 then .error .SigInvalidSIntID
      else if sLen = 0 then .error .SigZeroSLen
      else if sig.getD sOffset 0 &&& 128 ≠ 0 then .error .SigNegativeS
      else if 1 < sLen ∧ sig.getD sOffset 0 = 0 ∧
          sig.getD (sOffset + 1) 0 &&& 128 = 0 then
        .error .SigTooMuchSPadding
      else
        let rBytes := ((sig.drop 4).take rLen).dropWhile (· = 0)
        if 32 < rBytes.length then .error .SigRTooBig
        else if curveOrderN ≤ beVal rBytes % 2 ^ 256 then .error .SigRTooBig
        else if setByteSliceModN rBytes = 0 then .error .SigRIsZero
        else
          let sBytes := ((sig.drop sOffset).take sLen).dropWhile (· = 0)
          if 32 < sBytes.length then .error .SigSTooBig
          else if curveOrderN ≤ beVal sBytes % 2 ^ 256 then .error .SigSTooBig
          else if setByteSliceModN sBytes = 0 then .error .SigSIsZero
          else .ok ⟨setByteSliceModN rBytes, setByteSliceModN sBytes, 255⟩

/-- The canonicalization loop in `Signature.Serialize`: strip leading zero
bytes as long as the next byte does not have the high bit set and it is not
the final byte. -/
def trimDER : List ℕ → List ℕ
  | a :: b :: rest =>
    if a = 0 ∧ b &&& 128 = 0 then trimDER (b :: rest) else a :: b :: rest
  | l => l

/-- The DER serialization `Signature.Serialize` from `signature.go`:
normalize S to at most the half order, write both scalars as 33-byte
zero-prefixed big-endian strings, canonicalize, and assemble the sequence. -/
def Signature.serialize (sig : Signature) : List ℕ :=
  let sigS := if halfOrder < sig.s then (curveOrderN - sig.s) % curveOrderN
    else sig.s
  let canonR := trimDER (0 :: toBytesBE 32 sig.r)
  let canonS := trimDER (0 :: toBytesBE 32 sigS)
  let totalLen := 6 + canonR.length + canonS.length
  [48, totalLen - 2, 2, canonR.length] ++ canonR ++
    [2, canonS.length] ++ canonS

/-- The byte string of a structurally well-formed DER signature built from
integer fields rB and sB. -/
def mkDER (rB sB : List ℕ) : List ℕ :=
  [48, 4 + rB.length + sB.length, 2, rB.length] ++ rB ++ [2, sB.length] ++ sB

theorem beVal_toBytesBE (len v : ℕ) :
    beVal (toBytesBE len v) = v % 256 ^ len := by
  induction len generalizing v with
  | zero => simp [toBytesBE, beVal, Nat.mod_one]
  | succ len ih =>
    rw [toBytesBE, beVal_append, ih]
    simp only [beVal, List.length_cons, List.length_nil, zero_add, pow_one,
      add_zero]
    rw [show (256 : ℕ) ^ (len + 1) = 256 * 256 ^ len from by ring, Nat.mod_mul]
    omega

theorem toBytesBE_lt (len v : ℕ) : ∀ x ∈ toBytesBE len v, x < 256 := by
  induction len generalizing v with
  | zero => intro x hx; simp [toBytesBE] at hx
  | succ len ih =>
    intro x hx
    simp only [toBytesBE, List.mem_append, List.mem_singleton] at hx
    rcases hx with hx | hx
    · exact ih _ x hx
    · omega

theorem beVal_lt (l : List ℕ) (h : ∀ x ∈ l, x < 256) :
    beVal l < 256 ^ l.length := by
  induction l with
  | nil => simp [beVal]
  | cons b t ih =>
    have hb : b ≤ 255 := by have := h b (List.mem_cons_self b t); omega
    have ht : beVal t < 256 ^ t.length :=
      ih fun x hx => h x (List.mem_cons_of_mem _ hx)
    have hmul : b * 256 ^ t.length ≤ 255 * 256 ^ t.length :=
      Nat.mul_le_mul_right _ hb
    simp only [beVal, List.length_cons,
      show (256 : ℕ) ^ (t.length + 1) = 256 * 256 ^ t.length from by ring]
    omega

theorem beVal_ge (l : List ℕ) (hne : l ≠ []) (hhead : l.getD 0 0 ≠ 0) :
    256 ^ (l.length - 1) ≤ beVal l := by
  cases l with
  | nil => exact absurd rfl hne
  | cons b t =>
    simp only [List.getD_cons_zero] at hhead
    have hb : 1 ≤ b := by omega
    have := Nat.mul_le_mul_right (256 ^ t.length) hb
    simp only [beVal, List.length_cons, Nat.add_sub_cancel]
    omega

theorem beVal_dropWhile_zero (l : List ℕ) :
    beVal (l.dropWhile (· = 0)) = beVal l := by
  induction l with
  | nil => rfl
  | cons b t ih =>
    by_cases hb : b = 0
    · subst hb
      simp only [List.dropWhile_cons, decide_true_eq_true, beVal]
      simpa [beVal] using ih
    · simp [List.dropWhile_cons, hb, beVal]

theorem dropWhile_zero_head (l : List ℕ) (hne : l.dropWhile (· = 0) ≠ []) :
    (l.dropWhile (· = 0)).getD 0 0 ≠ 0 := by
  induction l with
  | nil => exact absurd rfl hne
  | cons b t ih =>
    by_cases hb : b = 0
    · subst hb
      simp only [List.dropWhile_cons, decide_true_eq_true] at hne ⊢
      exact ih hne
    · simp [List.dropWhile_cons, hb]

theorem dropWhile_zero_length_le (l : List ℕ) (m : ℕ)
    (hv : beVal l < 256 ^ m) : (l.dropWhile (· = 0)).length ≤ m := by
  by_cases hd : l.dropWhile (· = 0) = []
  · simp [hd]
  · have h1 := beVal_ge _ hd (dropWhile_zero_head l hd)
    rw [beVal_dropWhile_zero] at h1
    have h2 : 256 ^ ((l.dropWhile (· = 0)).length - 1) < 256 ^ m :=
      Nat.lt_of_le_of_lt h1 hv
    have h3 : (l.dropWhile (· = 0)).length - 1 < m :=
      (Nat.pow_lt_pow_iff_right (by omega)).mp h2
    have h4 : (l.dropWhile (· = 0)).length ≠ 0 :=
      fun hc => hd (List.eq_nil_of_length_eq_zero hc)
    omega

theorem trimDER_spec (l : List ℕ) (hne : l ≠ [])
    (hhead : l.getD 0 0 &&& 128 = 0) :
    beVal (trimDER l) = beVal l ∧
      1 ≤ (trimDER l).length ∧ (trimDER l).length ≤ l.length ∧
      (trimDER l).getD 0 0 &&& 128 = 0 ∧
      ¬(1 < (trimDER l).length ∧ (trimDER l).getD 0 0 = 0 ∧
          (trimDER l).getD 1 0 &&& 128 = 0) := by
  induction l with
  | nil => exact absurd rfl hne
  | cons a t ih =>
    cases t with
    | nil =>
      refine ⟨rfl, by simp [trimDER], by simp [trimDER], ?_, ?_⟩
      · simpa [trimDER] using hhead
      · simp [trimDER]
    | cons b rest =>
      by_cases hc : a = 0 ∧ b &&& 128 = 0
      · have htrim : trimDER (a :: b :: rest) = trimDER (b :: rest) := by
          rw [trimDER, if_pos hc]
        obtain ⟨ihv, ihlen1, ihlen2, ihhead, ihpad⟩ :=
          ih (by simp) (by simpa using hc.2)
        rw [htrim]
        refine ⟨?_, ihlen1, by simpa using Nat.le_succ_of_le ihlen2,
          ihhead, ihpad⟩
        rw [ihv]
        simp [beVal, hc.1]
      · have htrim : trimDER (a :: b :: rest) = a :: b :: rest := by
          rw [trimDER, if_neg hc]
        rw [htrim]
        refine ⟨rfl, by simp, le_rfl, by simpa using hhead, ?_⟩
        rintro ⟨-, h1, h2⟩
        simp only [List.getD_cons_zero, List.getD_cons_succ] at h1 h2
        exact hc ⟨h1, h2⟩

theorem mkDER_length (rB sB : List ℕ) :
    (mkDER rB sB).length = 6 + rB.length + sB.length := by
  simp [mkDER]; omega

theorem mkDER_getD_zero (rB sB : List ℕ) : (mkDER rB sB).getD 0 0 = 48 := rfl

theorem mkDER_getD_one (rB sB : List ℕ) :
    (mkDER rB sB).getD 1 0 = 4 + rB.length + sB.length := rfl

theorem mkDER_getD_two (rB sB : List ℕ) : (mkDER rB sB).getD 2 0 = 2 := rfl

theorem mkDER_getD_three (rB sB : List ℕ) :
    (mkDER rB sB).getD 3 0 = rB.length := rfl

theorem mkDER_getD_four (rB sB : List ℕ) (h : 0 < rB.length) :
    (mkDER rB sB).getD 4 0 = rB.getD 0 0 := by
  simp only [mkDER, List.cons_append, List.nil_append, List.getD_cons_succ]
  rw [List.getD_append _ _ _ _ (by simp), List.getD_append _ _ _ _ h]

theorem mkDER_getD_five (rB sB : List ℕ) (h : 1 < rB.length) :
    (mkDER rB sB).getD 5 0 = rB.getD 1 0 := by
  simp only [mkDER, List.cons_append, List.nil_append, List.getD_cons_succ]
  rw [List.getD_append _ _ _ _ (by simp), List.getD_append _ _ _ _ h]

theorem mkDER_getD_sType (rB sB : List ℕ) :
    (mkDER rB sB).getD (4 + rB.length) 0 = 2 := by
  simp only [mkDER, List.cons_append, List.nil_append]
  rw [show 4 + rB.length = rB.length + 1 + 1 + 1 + 1 from by omega]
  simp only [List.getD_cons_succ]
  rw [List.getD_append _ _ _ _ (by simp),
    List.getD_append_right _ _ _ _ (le_refl _), Nat.sub_self]
  rfl

theorem mkDER_getD_sLen (rB sB : List ℕ) :
    (mkDER rB sB).getD (4 + rB.length + 1) 0 = sB.length := by
  simp only [mkDER, List.cons_append, List.nil_append]
  rw [show 4 + rB.length + 1 = rB.length + 1 + 1 + 1 + 1 + 1 from by omega]
  simp only [List.getD_cons_succ]
  rw [List.getD_append _ _ _ _ (by simp),
    List.getD_append_right _ _ _ _ (Nat.le_succ _),
    show rB.length + 1 - rB.length = 1 from by omega]
  rfl

theorem mkDER_getD_sZero (rB sB : List ℕ) (h : 0 < sB.length) :
    (mkDER rB sB).getD (4 + rB.length + 1 + 1) 0 = sB.getD 0 0 := by
  simp only [mkDER, List.cons_append, List.nil_append]
  rw [show 4 + rB.length + 1 + 1 = rB.length + 2 + 1 + 1 + 1 + 1 from by omega]
  simp only [List.getD_cons_succ]
  rw [List.getD_append_right _ _ _ _ (by simp),
    show rB.length + 2 - (rB ++ [2, sB.length]).length = 0 from by simp]

theorem mkDER_getD_sOne (rB sB : List ℕ) (h : 1 < sB.length) :
    (mkDER rB sB).getD (4 + rB.length + 1 + 1 + 1) 0 = sB.getD 1 0 := by
  simp only [mkDER, List.cons_append, List.nil_append]
  rw [show 4 + rB.length + 1 + 1 + 1 = rB.length + 3 + 1 + 1 + 1 + 1 from
    by omega]
  simp only [List.getD_cons_succ]
  rw [List.getD_append_right _ _ _ _ (by simp),
    show rB.length + 3 - (rB ++ [2, sB.length]).length = 1 from by simp]

theorem mkDER_rSlice (rB sB : List ℕ) :
    ((mkDER rB sB).drop 4).take rB.length = rB := by
  simp only [mkDER, List.cons_append, List.nil_append, List.drop_succ_cons,
    List.drop_zero]
  rw [List.append_assoc]
  exact List.take_left rB _

theorem mkDER_sSlice (rB sB : List ℕ) :
    ((mkDER rB sB).drop (4 + rB.length + 1 + 1)).take sB.length = sB := by
  simp only [mkDER, List.cons_append, List.nil_append]
  rw [show 4 + rB.length + 1 + 1 = rB.length + 2 + 1 + 1 + 1 + 1 from by omega]
  simp only [List.drop_succ_cons]
  rw [show rB.length + 2 = (rB ++ [2, sB.length]).length from by simp,
    List.drop_left]
  exact List.take_length _

/-- Parsing a structurally well-formed DER byte string reduces to the value
checks on the R and S integer fields. -/
theorem parseDER_mkDER (rB sB : List ℕ)
    (hr1 : 1 ≤ rB.length) (hr33 : rB.length ≤ 33)
    (hs1 : 1 ≤ sB.length) (hs33 : sB.length ≤ 33)
    (hrneg : rB.getD 0 0 &&& 128 = 0) (hsneg : sB.getD 0 0 &&& 128 = 0)
    (hrpad : ¬(1 < rB.length ∧ rB.getD 0 0 = 0 ∧ rB.getD 1 0 &&& 128 = 0))
    (hspad : ¬(1 < sB.length ∧ sB.getD 0 0 = 0 ∧ sB.getD 1 0 &&& 128 = 0)) :
    parseDERSignature (mkDER rB sB) =
      (if 32 < (rB.dropWhile (· = 0)).length then .error .SigRTooBig
       else if curveOrderN ≤ beVal (rB.dropWhile (· = 0)) % 2 ^ 256 then
         .error .SigRTooBig
       else if setByteSliceModN (rB.dropWhile (· = 0)) = 0 then
         .error .SigRIsZero
       else if 32 < (sB.dropWhile (· = 0)).length then .error .SigSTooBig
       else if curveOrderN ≤ beVal (sB.dropWhile (· = 0)) % 2 ^ 256 then
         .error .SigSTooBig
       else if setByteSliceModN (sB.dropWhile (· = 0)) = 0 then
         .error .SigSIsZero
       else .ok ⟨setByteSliceModN (rB.dropWhile (· = 0)),
         setByteSliceModN (sB.dropWhile (· = 0)), 255⟩) := by
  simp only [parseDERSignature, mkDER_length, mkDER_getD_zero, mkDER_getD_one,
    mkDER_getD_two, mkDER_getD_three, mkDER_getD_sType, mkDER_getD_sLen,
    mkDER_getD_four rB sB (by omega), mkDER_getD_sZero rB sB (by omega),
    mkDER_rSlice, mkDER_sSlice]
  rw [if_neg (by omega), if_neg (fun hc => by omega), if_neg (by intro hc; omega),
    if_neg (by omega), if_neg (fun hc => by omega), if_neg (by intro hc; omega),
    if_neg (by omega), if_neg (fun hc => by omega), if_neg (by intro hc; omega),
    if_neg (fun hc => hc hrneg)]
  rw [if_neg ?padR]
  case padR =>
    rintro ⟨hl, h0, h128⟩
    rw [mkDER_getD_five _ _ hl] at h128
    exact hrpad ⟨hl, h0, h128⟩
  rw [if_neg (by omega), if_neg (by omega), if_neg (fun hc => hc hsneg)]
  rw [if_neg ?padS]
  case padS =>
    rintro ⟨hl, h0, h128⟩
    rw [mkDER_getD_sOne _ _ hl] at h128
    exact hspad ⟨hl, h0, h128⟩

theorem trimmed_scalar_props (x : ℕ) (hxn : x < curveOrderN) :
    1 ≤ (trimDER (0 :: toBytesBE 32 x)).length ∧
      (trimDER (0 :: toBytesBE 32 x)).length ≤ 33 ∧
      (trimDER (0 :: toBytesBE 32 x)).getD 0 0 &&& 128 = 0 ∧
      ¬(1 < (trimDER (0 :: toBytesBE 32 x)).length ∧
          (trimDER (0 :: toBytesBE 32 x)).getD 0 0 = 0 ∧
          (trimDER (0 :: toBytesBE 32 x)).getD 1 0 &&& 128 = 0) ∧
      ((trimDER (0 :: toBytesBE 32 x)).dropWhile (· = 0)).length ≤ 32 ∧
      beVal ((trimDER (0 :: toBytesBE 32 x)).dropWhile (· = 0)) = x := by
  have hlt : curveOrderN < 256 ^ 32 := by decide
  have hbe : beVal (0 :: toBytesBE 32 x) = x := by
    rw [show ∀ (b : ℕ) (t : List ℕ),
        beVal (b :: t) = b * 256 ^ t.length + beVal t from fun _ _ => rfl,
      beVal_toBytesBE, toBytesBE_length, Nat.zero_mul, Nat.zero_add]
    exact Nat.mod_eq_of_lt (by omega)
  obtain ⟨tv, tl1, tl2, thead, tpad⟩ :=
    trimDER_spec (0 :: toBytesBE 32 x) (by simp) (by simp)
  refine ⟨tl1, by simpa [toBytesBE_length] using tl2, thead, tpad, ?_, ?_⟩
  · apply dropWhile_zero_length_le
    rw [tv, hbe]; omega
  · rw [beVal_dropWhile_zero, tv, hbe]

/-- Claim C3: for every signature (r, s) with r and s in [1, n-1], DER
serialization emits the low-S form and parsing the serialized bytes succeeds
and yields the signature (r, min(s, n-s)), the original with its s component
replaced by the low-S canonical form. -/
theorem serialize_parse_roundtrip (sig : Signature)
    (hr1 : 1 ≤ sig.r) (hrn : sig.r < curveOrderN)
    (hs1 : 1 ≤ sig.s) (hsn : sig.s < curveOrderN) :
    parseDERSignature sig.serialize =
      .ok ⟨sig.r, min sig.s (curveOrderN - sig.s), 255⟩ := by
  obtain ⟨r, s, v⟩ := sig
  dsimp only at hr1 hrn hs1 hsn ⊢
  have hnodd : curveOrderN = 2 * halfOrder + 1 := by decide
  set sl0 := if halfOrder < s then (curveOrderN - s) % curveOrderN else s
    with hsdef
  have hsfacts : 1 ≤ sl0 ∧ sl0 < curveOrderN ∧
      sl0 = min s (curveOrderN - s) := by
    rw [hsdef]
    by_cases hc : halfOrder < s
    · rw [if_pos hc, Nat.mod_eq_of_lt (by omega)]
      refine ⟨by omega, by omega, by omega⟩
    · rw [if_neg hc]
      refine ⟨hs1, hsn, by omega⟩
  have hser : Signature.serialize ⟨r, s, v⟩ =
      mkDER (trimDER (0 :: toBytesBE 32 r)) (trimDER (0 :: toBytesBE 32 sl0)) := by
    simp only [Signature.serialize, mkDER, hsdef]
    rw [show 6 + (trimDER (0 :: toBytesBE 32 r)).length +
        (trimDER (0 :: toBytesBE 32 (if halfOrder < s then
          (curveOrderN - s) % curveOrderN else s))).length - 2 =
      4 + (trimDER (0 :: toBytesBE 32 r)).length +
        (trimDER (0 :: toBytesBE 32 (if halfOrder < s then
          (curveOrderN - s) % curveOrderN else s))).length from by omega]
  have h2256 : curveOrderN < 2 ^ 256 := by decide
  obtain ⟨r1, r33, rneg, rpad, rstrip, rval⟩ := trimmed_scalar_props r hrn
  obtain ⟨t1, t33, tneg, tpad, tstrip, tval⟩ :=
    trimmed_scalar_props sl0 hsfacts.2.1
  rw [hser, parseDER_mkDER _ _ r1 r33 t1 t33 rneg tneg rpad tpad]
  have hrlt : beVal ((trimDER (0 :: toBytesBE 32 r)).dropWhile (· = 0)) %
      2 ^ 256 = r := by
    rw [rval]; exact Nat.mod_eq_of_lt (by omega)
  have htlt : beVal ((trimDER (0 :: toBytesBE 32 sl0)).dropWhile (· = 0)) %
      2 ^ 256 = sl0 := by
    rw [tval]; exact Nat.mod_eq_of_lt (by omega)
  have hrset : setByteSliceModN ((trimDER (0 :: toBytesBE 32 r)).dropWhile (· = 0)) = r := by
    rw [setByteSliceModN, hrlt]; exact Nat.mod_eq_of_lt hrn
  have htset : setByteSliceModN ((trimDER (0 :: toBytesBE 32 sl0)).dropWhile (· = 0)) = sl0 := by
    rw [setByteSliceModN, htlt]; exact Nat.mod_eq_of_lt hsfacts.2.1
  rw [if_neg (by omega), hrlt, if_neg (by omega), hrset, if_neg (by omega),
    if_neg (by omega), htlt, if_neg (by omega), htset, if_neg (by omega)]
  rw [hsfacts.2.2]

/-- Witness for `serialize_parse_roundtrip` at the signature (1, 1). -/
theorem serialize_parse_roundtrip_witness :
    1 ≤ (Signature.mk 1 1 255).r ∧ (Signature.mk 1 1 255).r < curveOrderN ∧
      1 ≤ (Signature.mk 1 1 255).s ∧ (Signature.mk 1 1 255).s < curveOrderN ∧
      parseDERSignature (Signature.mk 1 1 255).serialize =
        .ok ⟨(Signature.mk 1 1 255).r,
          min (Signature.mk 1 1 255).s
            (curveOrderN - (Signature.mk 1 1 255).s), 255⟩ :=
  ⟨by decide, by decide, by decide, by decide,
    serialize_parse_roundtrip (Signature.mk 1 1 255) (by decide) (by decide)
      (by decide) (by decide)⟩

/-- The stripped R integer field of a DER signature byte string, as read by
the parser. -/
def derRBytes (sig : List ℕ) : List ℕ :=
  ((sig.drop 4).take (sig.getD 3 0)).dropWhile (· = 0)

/-- The stripped S integer field of a DER signature byte string, as read by
the parser. -/
def derSBytes (sig : List ℕ) : List ℕ :=
  ((sig.drop (4 + sig.getD 3 0 + 1 + 1)).take
    (sig.getD (4 + sig.getD 3 0 + 1) 0)).dropWhile (· = 0)

/-- The condition, on the input byte string, that each error kind of
`parseDERSignature` reports. -/
def violationOf (sig : List ℕ) : ErrorKind → Prop
  | .SigTooShort => sig.length < 8
  | .SigTooLong => 72 < sig.length
  | .SigInvalidSeqID => sig.getD 0 0 ≠ 48
  | .SigInvalidDataLen => sig.getD 1 0 ≠ sig.length - 2
  | .SigMissingSTypeID => sig.length ≤ 4 + sig.getD 3 0
  | .SigMissingSLen => sig.length ≤ 4 + sig.getD 3 0 + 1
  | .SigInvalidSLen =>
      4 + sig.getD 3 0 + 1 + 1 + sig.getD (4 + sig.getD 3 0 + 1) 0 ≠ sig.length
  | .SigInvalidRIntID => sig.getD 2 0 ≠ 2
  | .SigZeroRLen => sig.getD 3 0 = 0
  | .SigNegativeR => sig.getD 4 0 &&& 128 ≠ 0
  | .SigTooMuchRPadding =>
      1 < sig.getD 3 0 ∧ sig.getD 4 0 = 0 ∧ sig.getD 5 0 &&& 128 = 0
  | .SigRIsZero => setByteSliceModN (derRBytes sig) = 0
  | .SigRTooBig =>
      32 < (derRBytes sig).length ∨
        curveOrderN ≤ beVal (derRBytes sig) % 2 ^ 256
  | .SigInvalidSIntID => sig.getD (4 + sig.getD 3 0) 0 ≠ 2
  | .SigZeroSLen => sig.getD (4 + sig.getD 3 0 + 1) 0 = 0
  | .SigNegativeS => sig.getD (4 + sig.getD 3 0 + 1 + 1) 0 &&& 128 ≠ 0
  | .SigTooMuchSPadding =>
      1 < sig.getD (4 + sig.getD 3 0 + 1) 0 ∧
        sig.getD (4 + sig.getD 3 0 + 1 + 1) 0 = 0 ∧
        sig.getD (4 + sig.getD 3 0 + 1 + 1 + 1) 0 &&& 128 = 0
  | .SigSIsZero => setByteSliceModN (derSBytes sig) = 0
  | .SigSTooBig =>
      32 < (derSBytes sig).length ∨
        curveOrderN ≤ beVal (derSBytes sig) % 2 ^ 256

/-- A byte string is a well-formed DER secp256k1 signature: it has the exact
sequence shape with correct tags and length bytes (total length is then
automatically in [8, 72]), the R and S fields are non-negative and minimally
encoded, and their values lie in [1, n-1]. -/
def ValidDERSignature (sig : List ℕ) : Prop :=
  ∃ rB sB : List ℕ,
    sig = mkDER rB sB ∧
    1 ≤ rB.length ∧ rB.length ≤ 33 ∧ 1 ≤ sB.length ∧ sB.length ≤ 33 ∧
    rB.getD 0 0 &&& 128 = 0 ∧ sB.getD 0 0 &&& 128 = 0 ∧
    ¬(1 < rB.length ∧ rB.getD 0 0 = 0 ∧ rB.getD 1 0 &&& 128 = 0) ∧
    ¬(1 < sB.length ∧ sB.getD 0 0 = 0 ∧ sB.getD 1 0 &&& 128 = 0) ∧
    1 ≤ beVal (rB.dropWhile (· = 0)) ∧
    beVal (rB.dropWhile (· = 0)) < curveOrderN ∧
    1 ≤ beVal (sB.dropWhile (· = 0)) ∧
    beVal (sB.dropWhile (· = 0)) < curveOrderN

theorem drop_eq_getD_cons (l : List ℕ) (i : ℕ) (h : i < l.length) :
    l.drop i = l.getD i 0 :: l.drop (i + 1) := by
  rw [List.getD_eq_getElem l 0 h]
  exact List.drop_eq_getElem_cons h

theorem take_four_eq (l : List ℕ) (h : 4 ≤ l.length) :
    l.take 4 = [l.getD 0 0, l.getD 1 0, l.getD 2 0, l.getD 3 0] := by
  rcases l with _ | ⟨a, _ | ⟨b, _ | ⟨c, _ | ⟨d, t⟩⟩⟩⟩ <;>
    simp_all [List.take_succ_cons, List.take_zero]

theorem minimal_length_le (l : List ℕ) (hne : l ≠ [])
    (hpad : ¬(1 < l.length ∧ l.getD 0 0 = 0 ∧ l.getD 1 0 &&& 128 = 0))
    (hstrip : (l.dropWhile (· = 0)).length ≤ 32) : l.length ≤ 33 := by
  cases l with
  | nil => exact absurd rfl hne
  | cons b t =>
    by_cases hb : b = 0
    · subst hb
      cases t with
      | nil => simp
      | cons c t' =>
        have hc : ¬(c &&& 128 = 0) := by
          intro hc
          exact hpad ⟨by simp, rfl, by simpa using hc⟩
        have hc0 : c ≠ 0 := fun h0 => hc (by simp [h0])
        have hd : (0 :: c :: t').dropWhile (· = 0) = c :: t' := by
          rw [List.dropWhile_cons, if_pos (by simp), List.dropWhile_cons,
            if_neg (by simp [hc0])]
        rw [hd] at hstrip
        simp only [List.length_cons] at hstrip ⊢
        omega
    · have hd : (b :: t).dropWhile (· = 0) = b :: t := by
        rw [List.dropWhile_cons, if_neg (by simp [hb])]
      rw [hd] at hstrip
      omega

theorem sig_decomposition (sig : List ℕ)
    (hlen8 : 8 ≤ sig.length)
    (hbound : 4 + sig.getD 3 0 + 1 < sig.length)
    (hslen : 4 + sig.getD 3 0 + 1 + 1 + sig.getD (4 + sig.getD 3 0 + 1) 0 =
      sig.length) :
    sig = [sig.getD 0 0, sig.getD 1 0, sig.getD 2 0, sig.getD 3 0] ++
      (sig.drop 4).take (sig.getD 3 0) ++
      [sig.getD (4 + sig.getD 3 0) 0, sig.getD (4 + sig.getD 3 0 + 1) 0] ++
      (sig.drop (4 + sig.getD 3 0 + 1 + 1)).take
        (sig.getD (4 + sig.getD 3 0 + 1) 0) := by
  set rl := sig.getD 3 0 with hrl
  set sl := sig.getD (4 + rl + 1) 0 with hsl
  have h1 : sig.take 4 ++ sig.drop 4 = sig := List.take_append_drop 4 sig
  have h2 : (sig.drop 4).take rl ++ (sig.drop 4).drop rl = sig.drop 4 :=
    List.take_append_drop rl (sig.drop 4)
  have h3 : (sig.drop 4).drop rl = sig.drop (4 + rl) := by
    rw [List.drop_drop]
  have h4 : sig.drop (4 + rl) =
      sig.getD (4 + rl) 0 :: sig.drop (4 + rl + 1) :=
    drop_eq_getD_cons sig (4 + rl) (by omega)
  have h5 : sig.drop (4 + rl + 1) = sl :: sig.drop (4 + rl + 1 + 1) :=
    drop_eq_getD_cons sig (4 + rl + 1) (by omega)
  have h6 : (sig.drop (4 + rl + 1 + 1)).take sl = sig.drop (4 + rl + 1 + 1) := by
    apply List.take_of_length_le
    rw [List.length_drop]
    omega
  conv_lhs => rw [← h1, take_four_eq sig (by omega), ← h2, h3, h4, h5]
  rw [h6]
  simp only [List.append_assoc, List.cons_append, List.nil_append]

theorem stripped_lt_two_pow (l : List ℕ) (helem : ∀ x ∈ l, x < 256)
    (hlen : (l.dropWhile (· = 0)).length ≤ 32) :
    beVal (l.dropWhile (· = 0)) < 2 ^ 256 := by
  have h1 : beVal (l.dropWhile (· = 0)) <
      256 ^ (l.dropWhile (· = 0)).length :=
    beVal_lt _ fun x hx => helem x ((List.dropWhile_sublist _).subset hx)
  have h2 : (256 : ℕ) ^ (l.dropWhile (· = 0)).length ≤ 256 ^ 32 :=
    Nat.pow_le_pow_right (by omega) hlen
  have h3 : (256 : ℕ) ^ 32 = 2 ^ 256 := by norm_num
  omega

theorem setByteSlice_of_lt (l : List ℕ) (h : beVal l < curveOrderN) :
    setByteSliceModN l = beVal l := by
  have h2 : curveOrderN < 2 ^ 256 := by decide
  rw [setByteSliceModN, Nat.mod_eq_of_lt (by omega), Nat.mod_eq_of_lt (by omega)]

/-- Claim C9: `ParseDERSignature` accepts exactly the well-formed inputs
(correct shape and tags, outer length byte equal to total length minus 2 and
total length thereby in [8, 72], non-negative minimally-encoded R and S with
values in [1, n-1]); every reported error kind reflects its own violated
condition; and any otherwise well-formed input whose R value equals the
group order n fails with the error kind SigRTooBig. -/
theorem parseDER_characterization (sig : List ℕ)
    (helem : ∀ b ∈ sig, b < 256) :
    ((∃ out, parseDERSignature sig = .ok out) ↔ ValidDERSignature sig) ∧
      (∀ k, parseDERSignature sig = .error k → violationOf sig k) ∧
      (∀ rB sB : List ℕ, sig = mkDER rB sB →
        1 ≤ rB.length → rB.length ≤ 33 → 1 ≤ sB.length → sB.length ≤ 33 →
        rB.getD 0 0 &&& 128 = 0 → sB.getD 0 0 &&& 128 = 0 →
        ¬(1 < rB.length ∧ rB.getD 0 0 = 0 ∧ rB.getD 1 0 &&& 128 = 0) →
        ¬(1 < sB.length ∧ sB.getD 0 0 = 0 ∧ sB.getD 1 0 &&& 128 = 0) →
        beVal (rB.dropWhile (· = 0)) = curveOrderN →
        parseDERSignature sig = .error .SigRTooBig) := by
  refine ⟨⟨?_, ?_⟩, ?_, ?_⟩
  · -- success implies the well-formedness predicate
    rintro ⟨out, h⟩
    simp only [parseDERSignature] at h
    by_cases c1 : sig.length < 8
    · rw [if_pos c1] at h; exact Except.noConfusion h
    rw [if_neg c1] at h
    by_cases c2 : 72 < sig.length
    · rw [if_pos c2] at h; exact Except.noConfusion h
    rw [if_neg c2] at h
    by_cases c3 : sig.getD 0 0 ≠ 48
    · rw [if_pos c3] at h; exact Except.noConfusion h
    rw [if_neg c3] at h
    by_cases c4 : sig.getD 1 0 ≠ sig.length - 2
    · rw [if_pos c4] at h; exact Except.noConfusion h
    rw [if_neg c4] at h
    by_cases c5 : sig.length ≤ 4 + sig.getD 3 0
    · rw [if_pos c5] at h; exact Except.noConfusion h
    rw [if_neg c5] at h
    by_cases c6 : sig.length ≤ 4 + sig.getD 3 0 + 1
    · rw [if_pos c6] at h; exact Except.noConfusion h
    rw [if_neg c6] at h
    by_cases c7 : 4 + sig.getD 3 0 + 1 + 1 +
        sig.getD (4 + sig.getD 3 0 + 1) 0 ≠ sig.length
    · rw [if_pos c7] at h; exact Except.noConfusion h
    rw [if_neg c7] at h
    by_cases c8 : sig.getD 2 0 ≠ 2
    · rw [if_pos c8] at h; exact Except.noConfusion h
    rw [if_neg c8] at h
    by_cases c9 : sig.getD 3 0 = 0
    · rw [if_pos c9] at h; exact Except.noConfusion h
    rw [if_neg c9] at h
    by_cases c10 : sig.getD 4 0 &&& 128 ≠ 0
    · rw [if_pos c10] at h; exact Except.noConfusion h
    rw [if_neg c10] at h
    by_cases c11 : 1 < sig.getD 3 0 ∧ sig.getD 4 0 = 0 ∧
        sig.getD 5 0 &&& 128 = 0
    · rw [if_pos c11] at h; exact Except.noConfusion h
    rw [if_neg c11] at h
    by_cases c12 : sig.getD (4 + sig.getD 3 0) 0 ≠ 2
    · rw [if_pos c12] at h; exact Except.noConfusion h
    rw [if_neg c12] at h
    by_cases c13 : sig.getD (4 + sig.getD 3 0 + 1) 0 = 0
    · rw [if_pos c13] at h; exact Except.noConfusion h
    rw [if_neg c13] at h
    by_cases c14 : sig.getD (4 + sig.getD 3 0 + 1 + 1) 0 &&& 128 ≠ 0
    · rw [if_pos c14] at h; exact Except.noConfusion h
    rw [if_neg c14] at h
    by_cases c15 : 1 < sig.getD (4 + sig.getD 3 0 + 1) 0 ∧
        sig.getD (4 + sig.getD 3 0 + 1 + 1) 0 = 0 ∧
        sig.getD (4 + sig.getD 3 0 + 1 + 1 + 1) 0 &&& 128 = 0
    · rw [if_pos c15] at h; exact Except.noConfusion h
    rw [if_neg c15] at h
    by_cases v1 : 32 < (((sig.drop 4).take (sig.getD 3 0)).dropWhile
        (· = 0)).length
    · rw [if_pos v1] at h; exact Except.noConfusion h
    rw [if_neg v1] at h
    by_cases v2 : curveOrderN ≤ beVal (((sig.drop 4).take
        (sig.getD 3 0)).dropWhile (· = 0)) % 2 ^ 256
    · rw [if_pos v2] at h; exact Except.noConfusion h
    rw [if_neg v2] at h
    by_cases v3 : setByteSliceModN (((sig.drop 4).take
        (sig.getD 3 0)).dropWhile (· = 0)) = 0
    · rw [if_pos v3] at h; exact Except.noConfusion h
    rw [if_neg v3] at h
    by_cases v4 : 32 < (((sig.drop (4 + sig.getD 3 0 + 1 + 1)).take
        (sig.getD (4 + sig.getD 3 0 + 1) 0)).dropWhile (· = 0)).length
    · rw [if_pos v4] at h; exact Except.noConfusion h
    rw [if_neg v4] at h
    by_cases v5 : curveOrderN ≤ beVal (((sig.drop (4 + sig.getD 3 0 + 1 +
        1)).take (sig.getD (4 + sig.getD 3 0 + 1) 0)).dropWhile (· = 0)) %
        2 ^ 256
    · rw [if_pos v5] at h; exact Except.noConfusion h
    rw [if_neg v5] at h
    by_cases v6 : setByteSliceModN (((sig.drop (4 + sig.getD 3 0 + 1 +
        1)).take (sig.getD (4 + sig.getD 3 0 + 1) 0)).dropWhile (· = 0)) = 0
    · rw [if_pos v6] at h; exact Except.noConfusion h
    rw [if_neg v6] at h
    clear h
    set rB := (sig.drop 4).take (sig.getD 3 0) with hrB
    set sB := (sig.drop (4 + sig.getD 3 0 + 1 + 1)).take
      (sig.getD (4 + sig.getD 3 0 + 1) 0) with hsB
    have hrBlen : rB.length = sig.getD 3 0 := by
      rw [hrB, List.length_take, List.length_drop]; omega
    have hsBlen : sB.length = sig.getD (4 + sig.getD 3 0 + 1) 0 := by
      rw [hsB, List.length_take, List.length_drop]; omega
    have hdecomp : sig = mkDER rB sB := by
      have hd := sig_decomposition sig (by omega) (by omega) (by omega)
      rw [not_not] at c3 c4 c8 c12
      conv_lhs => rw [hd]
      simp only [mkDER, c3, c4, c8, c12, hrBlen, hsBlen]
      have : sig.length - 2 = 4 + sig.getD 3 0 +
          sig.getD (4 + sig.getD 3 0 + 1) 0 := by omega
      rw [this]
    have e4 : sig.getD 4 0 = rB.getD 0 0 := by
      conv_lhs => rw [hdecomp]
      exact mkDER_getD_four _ _ (by omega)
    have eS0 : sig.getD (4 + sig.getD 3 0 + 1 + 1) 0 = sB.getD 0 0 := by
      conv_lhs => rw [hdecomp]
      rw [mkDER_getD_three]
      exact mkDER_getD_sZero _ _ (by omega)
    have hrbeq : rB.dropWhile (· = 0) =
        ((sig.drop 4).take (sig.getD 3 0)).dropWhile (· = 0) := rfl
    have hsbeq : sB.dropWhile (· = 0) =
        ((sig.drop (4 + sig.getD 3 0 + 1 + 1)).take
          (sig.getD (4 + sig.getD 3 0 + 1) 0)).dropWhile (· = 0) := rfl
    have hrelem : ∀ x ∈ rB, x < 256 := fun x hx =>
      helem x (List.drop_subset 4 sig (List.take_subset _ _ hx))
    have hselem : ∀ x ∈ sB, x < 256 := fun x hx =>
      helem x (List.drop_subset _ sig (List.take_subset _ _ hx))
    have hrlt : beVal (rB.dropWhile (· = 0)) < 2 ^ 256 :=
      stripped_lt_two_pow rB hrelem (by omega)
    have hslt : beVal (sB.dropWhile (· = 0)) < 2 ^ 256 :=
      stripped_lt_two_pow sB hselem (by omega)
    have hrmod : beVal (rB.dropWhile (· = 0)) % 2 ^ 256 =
        beVal (rB.dropWhile (· = 0)) := Nat.mod_eq_of_lt hrlt
    have hsmod : beVal (sB.dropWhile (· = 0)) % 2 ^ 256 =
        beVal (sB.dropWhile (· = 0)) := Nat.mod_eq_of_lt hslt
    have hrval : beVal (rB.dropWhile (· = 0)) < curveOrderN := by
      omega
    have hsval : beVal (sB.dropWhile (· = 0)) < curveOrderN := by
      omega
    have hrnz : 1 ≤ beVal (rB.dropWhile (· = 0)) := by
      rcases Nat.eq_zero_or_pos (beVal (rB.dropWhile (· = 0))) with h0 | h0
      · exfalso
        apply v3
        rw [setByteSlice_of_lt _ hrval, h0]
      · exact h0
    have hsnz : 1 ≤ beVal (sB.dropWhile (· = 0)) := by
      rcases Nat.eq_zero_or_pos (beVal (sB.dropWhile (· = 0))) with h0 | h0
      · exfalso
        apply v6
        rw [setByteSlice_of_lt _ hsval, h0]
      · exact h0
    refine ⟨rB, sB, hdecomp, by omega, ?_, by omega, ?_, ?_, ?_, ?_, ?_,
      hrnz, hrval, hsnz, hsval⟩
    · refine minimal_length_le rB ?_ ?_ (by omega)
      · intro hc; apply c9; rw [← hrBlen, hc]; rfl
      · rintro ⟨hl, h0, h1⟩
        apply c11
        refine ⟨by omega, by rw [e4]; exact h0, ?_⟩
        have e5 : sig.getD 5 0 = rB.getD 1 0 := by
          conv_lhs => rw [hdecomp]
          exact mkDER_getD_five _ _ (by omega)
        rw [e5]; exact h1
    · refine minimal_length_le sB ?_ ?_ (by omega)
      · intro hc; apply c13; rw [← hsBlen, hc]; rfl
      · rintro ⟨hl, h0, h1⟩
        apply c15
        refine ⟨by omega, by rw [eS0]; exact h0, ?_⟩
        have eS1 : sig.getD (4 + sig.getD 3 0 + 1 + 1 + 1) 0 =
            sB.getD 1 0 := by
          conv_lhs => rw [hdecomp]
          rw [mkDER_getD_three]
          exact mkDER_getD_sOne _ _ (by omega)
        rw [eS1]; exact h1
    · rw [← e4]; omega
    · rw [← eS0]; omega
    · rintro ⟨hl, h0, h1⟩
      apply c11
      have e5 : sig.getD 5 0 = rB.getD 1 0 := by
        conv_lhs => rw [hdecomp]
        exact mkDER_getD_five _ _ (by omega)
      exact ⟨by omega, by rw [e4]; exact h0, by rw [e5]; exact h1⟩
    · rintro ⟨hl, h0, h1⟩
      apply c15
      have eS1 : sig.getD (4 + sig.getD 3 0 + 1 + 1 + 1) 0 =
          sB.getD 1 0 := by
        conv_lhs => rw [hdecomp]
        rw [mkDER_getD_three]
        exact mkDER_getD_sOne _ _ (by omega)
      exact ⟨by omega, by rw [eS0]; exact h0, by rw [eS1]; exact h1⟩
  · -- the well-formedness predicate implies success
    rintro ⟨rB, sB, hdecomp, hr1, hr33, hs1, hs33, hrneg, hsneg, hrpad,
      hspad, hrnz, hrval, hsnz, hsval⟩
    subst hdecomp
    rw [parseDER_mkDER rB sB hr1 hr33 hs1 hs33 hrneg hsneg hrpad hspad]
    have h2256 : curveOrderN < 2 ^ 256 := by decide
    have hrlen : (rB.dropWhile (· = 0)).length ≤ 32 := by
      apply dropWhile_zero_length_le
      rw [← beVal_dropWhile_zero]
      have : (256 : ℕ) ^ 32 = 2 ^ 256 := by norm_num
      omega
    have hslen : (sB.dropWhile (· = 0)).length ≤ 32 := by
      apply dropWhile_zero_length_le
      rw [← beVal_dropWhile_zero]
      have : (256 : ℕ) ^ 32 = 2 ^ 256 := by norm_num
      omega
    rw [if_neg (by omega), if_neg (by rw [Nat.mod_eq_of_lt (by omega)]; omega),
      if_neg (by rw [setByteSlice_of_lt _ hrval]; omega),
      if_neg (by omega), if_neg (by rw [Nat.mod_eq_of_lt (by omega)]; omega),
      if_neg (by rw [setByteSlice_of_lt _ hsval]; omega)]
    exact ⟨_, rfl⟩
  · -- every reported error kind reflects its own condition
    intro k h
    simp only [parseDERSignature] at h
    by_cases c1 : sig.length < 8
    · rw [if_pos c1] at h; injection h with hk; subst hk; exact c1
    rw [if_neg c1] at h
    by_cases c2 : 72 < sig.length
    · rw [if_pos c2] at h; injection h with hk; subst hk; exact c2
    rw [if_neg c2] at h
    by_cases c3 : sig.getD 0 0 ≠ 48
    · rw [if_pos c3] at h; injection h with hk; subst hk; exact c3
    rw [if_neg c3] at h
    by_cases c4 : sig.getD 1 0 ≠ sig.length - 2
    · rw [if_pos c4] at h; injection h with hk; subst hk; exact c4
    rw [if_neg c4] at h
    by_cases c5 : sig.length ≤ 4 + sig.getD 3 0
    · rw [if_pos c5] at h; injection h with hk; subst hk; exact c5
    rw [if_neg c5] at h
    by_cases c6 : sig.length ≤ 4 + sig.getD 3 0 + 1
    · rw [if_pos c6] at h; injection h with hk; subst hk; exact c6
    rw [if_neg c6] at h
    by_cases c7 : 4 + sig.getD 3 0 + 1 + 1 +
        sig.getD (4 + sig.getD 3 0 + 1) 0 ≠ sig.length
    · rw [if_pos c7] at h; injection h with hk; subst hk; exact c7
    rw [if_neg c7] at h
    by_cases c8 : sig.getD 2 0 ≠ 2
    · rw [if_pos c8] at h; injection h with hk; subst hk; exact c8
    rw [if_neg c8] at h
    by_cases c9 : sig.getD 3 0 = 0
    · rw [if_pos c9] at h; injection h with hk; subst hk; exact c9
    rw [if_neg c9] at h
    by_cases c10 : sig.getD 4 0 &&& 128 ≠ 0
    · rw [if_pos c10] at h; injection h with hk; subst hk; exact c10
    rw [if_neg c10] at h
    by_cases c11 : 1 < sig.getD 3 0 ∧ sig.getD 4 0 = 0 ∧
        sig.getD 5 0 &&& 128 = 0
    · rw [if_pos c11] at h; injection h with hk; subst hk; exact c11
    rw [if_neg c11] at h
    by_cases c12 : sig.getD (4 + sig.getD 3 0) 0 ≠ 2
    · rw [if_pos c12] at h; injection h with hk; subst hk; exact c12
    rw [if_neg c12] at h
    by_cases c13 : sig.getD (4 + sig.getD 3 0 + 1) 0 = 0
    · rw [if_pos c13] at h; injection h with hk; subst hk; exact c13
    rw [if_neg c13] at h
    by_cases c14 : sig.getD (4 + sig.getD 3 0 + 1 + 1) 0 &&& 128 ≠ 0
    · rw [if_pos c14] at h; injection h with hk; subst hk; exact c14
    rw [if_neg c14] at h
    by_cases c15 : 1 < sig.getD (4 + sig.getD 3 0 + 1) 0 ∧
        sig.getD (4 + sig.getD 3 0 + 1 + 1) 0 = 0 ∧
        sig.getD (4 + sig.getD 3 0 + 1 + 1 + 1) 0 &&& 128 = 0
    · rw [if_pos c15] at h; injection h with hk; subst hk; exact c15
    rw [if_neg c15] at h
    by_cases v1 : 32 < (((sig.drop 4).take (sig.getD 3 0)).dropWhile
        (· = 0)).length
    · rw [if_pos v1] at h; injection h with hk; subst hk
      simp only [violationOf, derRBytes]
      exact Or.inl v1
    rw [if_neg v1] at h
    by_cases v2 : curveOrderN ≤ beVal (((sig.drop 4).take
        (sig.getD 3 0)).dropWhile (· = 0)) % 2 ^ 256
    · rw [if_pos v2] at h; injection h with hk; subst hk
      simp only [violationOf, derRBytes]
      exact Or.inr v2
    rw [if_neg v2] at h
    by_cases v3 : setByteSliceModN (((sig.drop 4).take
        (sig.getD 3 0)).dropWhile (· = 0)) = 0
    · rw [if_pos v3] at h; injection h with hk; subst hk
      simp only [violationOf, derRBytes]
      exact v3
    rw [if_neg v3] at h
    by_cases v4 : 32 < (((sig.drop (4 + sig.getD 3 0 + 1 + 1)).take
        (sig.getD (4 + sig.getD 3 0 + 1) 0)).dropWhile (· = 0)).length
    · rw [if_pos v4] at h; injection h with hk; subst hk
      simp only [violationOf, derSBytes]
      exact Or.inl v4
    rw [if_neg v4] at h
    by_cases v5 : curveOrderN ≤ beVal (((sig.drop (4 + sig.getD 3 0 + 1 +
        1)).take (sig.getD (4 + sig.getD 3 0 + 1) 0)).dropWhile (· = 0)) %
        2 ^ 256
    · rw [if_pos v5] at h; injection h with hk; subst hk
      simp only [violationOf, derSBytes]
      exact Or.inr v5
    rw [if_neg v5] at h
    by_cases v6 : setByteSliceModN (((sig.drop (4 + sig.getD 3 0 + 1 +
        1)).take (sig.getD (4 + sig.getD 3 0 + 1) 0)).dropWhile (· = 0)) = 0
    · rw [if_pos v6] at h; injection h with hk; subst hk
      simp only [violationOf, derSBytes]
      exact v6
    rw [if_neg v6] at h
    exact Except.noConfusion h
  · -- an otherwise well-formed input with R equal to n is SigRTooBig
    intro rB sB hdecomp hr1 hr33 hs1 hs33 hrneg hsneg hrpad hspad hrn
    subst hdecomp
    rw [parseDER_mkDER rB sB hr1 hr33 hs1 hs33 hrneg hsneg hrpad hspad]
    by_cases hlen : 32 < (rB.dropWhile (· = 0)).length
    · rw [if_pos hlen]
    · rw [if_neg hlen]
      have h2256 : curveOrderN < 2 ^ 256 := by decide
      rw [if_pos (by rw [hrn, Nat.mod_eq_of_lt (by omega)])]

/-- A 71-byte DER signature whose R value equals the group order n exactly
(so it must be rejected with SigRTooBig). -/
def sigRTooBigInput : List ℕ :=
  [48, 69, 2, 33, 0, 255, 255, 255, 255, 255, 255, 255, 255, 255, 255, 255,
   255, 255, 255, 255, 254, 186, 174, 220, 230, 175, 72, 160, 59, 191, 210,
   94, 140, 208, 54, 65, 65, 2, 32, 24, 21, 34, 236, 142, 202, 7, 222, 72,
   96, 164, 172, 221, 18, 144, 157, 131, 28, 197, 108, 187, 172, 70, 34, 8,
   34, 33, 168, 118, 141, 29, 9]

/-- The R field bytes of sigRTooBigInput (a leading zero pad byte followed
by the 32 big-endian bytes of n). -/
def sigRTooBigR : List ℕ :=
  [0, 255, 255, 255, 255, 255, 255, 255, 255, 255, 255, 255, 255, 255, 255,
   255, 254, 186, 174, 220, 230, 175, 72, 160, 59, 191, 210, 94, 140, 208,
   54, 65, 65]

/-- The S field bytes of sigRTooBigInput. -/
def sigRTooBigS : List ℕ :=
  [24, 21, 34, 236, 142, 202, 7, 222, 72, 96, 164, 172, 221, 18, 144, 157,
   131, 28, 197, 108, 187, 172, 70, 34, 8, 34, 33, 168, 118, 141, 29, 9]

set_option maxRecDepth 100000 in
/-- C9 witness: the characterization applied to a concrete 71-byte DER
signature whose R value is exactly n shows the parser rejects it with
SigRTooBig. -/
theorem parseDER_characterization_witness :
    (∀ b ∈ sigRTooBigInput, b < 256) ∧
      parseDERSignature sigRTooBigInput = .error .SigRTooBig :=
  ⟨by decide,
    (parseDER_characterization sigRTooBigInput (by decide)).2.2
      sigRTooBigR sigRTooBigS (by decide) (by decide) (by decide) (by decide)
      (by decide) (by decide) (by decide) (by decide) (by decide) (by decide)⟩

/-- Body of the byte loop of `naf` in curve.go, processing the scalar bytes
from least significant (the loop runs from the last byte of the big-endian
slice towards the front, so the input here is the reversed, little-endian
byte list) while propagating the carry from the 3k/2 computation.  Each
step computes kc = byte + carry, halfK = kc>>1 with the low bit of the next
more-significant byte shifted in (the uint8 shift nextWord<<7 keeps only
that bit), threeHalfK = kc + halfK, and emits the bytes of 3k/2 &&& (3k/2
^^^ k/2) and k/2 &&& (3k/2 ^^^ k/2); the outgoing carry is threeHalfK >> 8.
Returns (positive digits, negative digits, final carry), little-endian. -/
def nafLoop : List ℕ → ℕ → List ℕ × List ℕ × ℕ
  | [], c => ([], [], c)
  | b :: rest, c =>
    let kc := b + c
    let halfK := kc / 2 ||| (rest.headD 0 * 128) % 256
    let threeHalfK := kc + halfK
    let r := nafLoop rest (threeHalfK / 256)
    ((threeHalfK &&& (threeHalfK ^^^ halfK)) % 256 :: r.1,
     (halfK &&& (threeHalfK ^^^ halfK)) % 256 :: r.2.1,
     r.2.2)

/-- The `naf` function of curve.go: strips leading zero bytes, runs the
byte loop, stores the final carry in pos[0], and returns the slices
pos[start:end] and neg[start:end] with start = 1 - carry and end = kLen+1:
when the final carry is 1 the positive part gains a leading carry byte and
the negative part a matching leading zero byte. -/
def naf (k : List ℕ) : List ℕ × List ℕ :=
  let r := nafLoop (k.dropWhile (· = 0)).reverse 0
  if r.2.2 = 0 then (r.1.reverse, r.2.1.reverse)
  else (r.2.2 :: r.1.reverse, 0 :: r.2.1.reverse)

theorem leVal_append_singleton (m : List ℕ) (x : ℕ) :
    leVal (m ++ [x]) = leVal m + x * 256 ^ m.length := by
  induction m with
  | nil => simp [leVal]
  | cons y s ihm =>
    show y + 256 * leVal (s ++ [x]) = y + 256 * leVal s + x * 256 ^ (y :: s).length
    rw [ihm, List.length_cons]
    ring

theorem leVal_reverse (l : List ℕ) : leVal l.reverse = beVal l := by
  induction l with
  | nil => rfl
  | cons b t ih =>
    rw [List.reverse_cons, leVal_append_singleton, ih, List.length_reverse]
    show beVal t + b * 256 ^ t.length = b * 256 ^ t.length + beVal t
    ring

theorem leVal_mod_two (l : List ℕ) : leVal l % 2 = l.headD 0 % 2 := by
  cases l with
  | nil => rfl
  | cons b t =>
    show (b + 256 * leVal t) % 2 = b % 2
    omega

theorem xor_double (a b i j : ℕ) (hi : i ≤ 1) (hj : j ≤ 1) :
    (2 * a + i) ^^^ (2 * b + j) = 2 * (a ^^^ b) + (i ^^^ j) := by
  have hij : i ^^^ j < 2 := by
    have := Nat.xor_lt_two_pow (show i < 2 ^ 1 from by omega)
      (show j < 2 ^ 1 from by omega)
    omega
  apply Nat.eq_of_testBit_eq
  intro idx
  cases idx with
  | zero =>
    rw [Nat.testBit_xor, Nat.testBit_zero, Nat.testBit_zero, Nat.testBit_zero,
      show (2 * a + i) % 2 = i from by omega,
      show (2 * b + j) % 2 = j from by omega,
      show (2 * (a ^^^ b) + (i ^^^ j)) % 2 = i ^^^ j from by omega]
    interval_cases i <;> interval_cases j <;> rfl
  | succ idx =>
    rw [Nat.testBit_succ, Nat.testBit_succ, Nat.xor_div_two,
      show (2 * a + i) / 2 = a from by omega,
      show (2 * b + j) / 2 = b from by omega,
      show (2 * (a ^^^ b) + (i ^^^ j)) / 2 = a ^^^ b from by omega]

theorem and_double (a b i j : ℕ) (hi : i ≤ 1) (hj : j ≤ 1) :
    (2 * a + i) &&& (2 * b + j) = 2 * (a &&& b) + (i &&& j) := by
  have hij : i &&& j ≤ 1 := le_trans Nat.and_le_left hi
  apply Nat.eq_of_testBit_eq
  intro idx
  cases idx with
  | zero =>
    rw [Nat.testBit_and, Nat.testBit_zero, Nat.testBit_zero, Nat.testBit_zero,
      show (2 * a + i) % 2 = i from by omega,
      show (2 * b + j) % 2 = j from by omega,
      show (2 * (a &&& b) + (i &&& j)) % 2 = i &&& j from by omega]
    interval_cases i <;> interval_cases j <;> rfl
  | succ idx =>
    rw [Nat.testBit_succ, Nat.testBit_succ, Nat.and_div_two,
      show (2 * a + i) / 2 = a from by omega,
      show (2 * b + j) / 2 = b from by omega,
      show (2 * (a &&& b) + (i &&& j)) / 2 = a &&& b from by omega]

theorem xor_mod_two (x y : ℕ) : (x ^^^ y) % 2 = (x + y) % 2 :=
  Nat.xor_mod_two_eq

theorem xor_split (n a b A B : ℕ) (ha : a < 2 ^ n) (hb : b < 2 ^ n) :
    (a + 2 ^ n * A) ^^^ (b + 2 ^ n * B) = (a ^^^ b) + 2 ^ n * (A ^^^ B) := by
  have hx : a ^^^ b < 2 ^ n := Nat.xor_lt_two_pow ha hb
  apply Nat.eq_of_testBit_eq
  intro i
  rw [Nat.add_comm a, Nat.add_comm b, Nat.add_comm (a ^^^ b), Nat.testBit_xor,
    Nat.testBit_mul_pow_two_add A ha i, Nat.testBit_mul_pow_two_add B hb i,
    Nat.testBit_mul_pow_two_add (A ^^^ B) hx i]
  by_cases hin : i < n
  · simp [hin, Nat.testBit_xor]
  · simp [hin, Nat.testBit_xor]

theorem and_split (n a b A B : ℕ) (ha : a < 2 ^ n) (hb : b < 2 ^ n) :
    (a + 2 ^ n * A) &&& (b + 2 ^ n * B) = (a &&& b) + 2 ^ n * (A &&& B) := by
  have hx : a &&& b < 2 ^ n := Nat.lt_of_le_of_lt Nat.and_le_left ha
  apply Nat.eq_of_testBit_eq
  intro i
  rw [Nat.add_comm a, Nat.add_comm b, Nat.add_comm (a &&& b), Nat.testBit_and,
    Nat.testBit_mul_pow_two_add A ha i, Nat.testBit_mul_pow_two_add B hb i,
    Nat.testBit_mul_pow_two_add (A &&& B) hx i]
  by_cases hin : i < n
  · simp [hin, Nat.testBit_and]
  · simp [hin, Nat.testBit_and]

theorem subset_xor_sum (a : ℕ) : ∀ b, (a ^^^ (a &&& b)) + (a &&& b) = a := by
  induction a using Nat.strong_induction_on with
  | _ a IH =>
    intro b
    rcases Nat.eq_zero_or_pos a with rfl | ha
    · simp
    obtain ⟨A, i, hi, rfl⟩ : ∃ A i, i ≤ 1 ∧ a = 2 * A + i :=
      ⟨a / 2, a % 2, by omega, by omega⟩
    obtain ⟨B, j, hj, rfl⟩ : ∃ B j, j ≤ 1 ∧ b = 2 * B + j :=
      ⟨b / 2, b % 2, by omega, by omega⟩
    rw [and_double A B i j hi hj,
      xor_double A (A &&& B) i (i &&& j) hi (le_trans Nat.and_le_left hi)]
    have hA : A < 2 * A + i := by omega
    have IHa := IH A hA B
    have hij : (i ^^^ (i &&& j)) + (i &&& j) = i := by
      interval_cases i <;> interval_cases j <;> decide
    omega

theorem or_and_xor (a b : ℕ) : (a ||| b) &&& (a ^^^ b) = a ^^^ b := by
  apply Nat.eq_of_testBit_eq
  intro i
  rw [Nat.testBit_and, Nat.testBit_or, Nat.testBit_xor]
  cases a.testBit i <;> cases b.testBit i <;> rfl

theorem t_and_mask (t h : ℕ) : t &&& (t ^^^ h) = t ^^^ (t &&& h) := by
  rw [Nat.and_xor_distrib_left, Nat.and_self]

theorem h_and_mask (t h : ℕ) : h &&& (t ^^^ h) = h ^^^ (t &&& h) := by
  rw [Nat.and_xor_distrib_left, Nat.and_self, Nat.xor_comm (h &&& t) h,
    Nat.and_comm h t]

theorem L_pos (y : ℕ) :
    (3 * y + 3) &&& ((3 * y + 3) ^^^ (y + 1)) =
      (3 * y + 2) &&& ((3 * y + 2) ^^^ y) := by
  induction y using Nat.strong_induction_on with
  | _ y IH =>
    obtain ⟨z, rfl | rfl⟩ : ∃ z, y = 2 * z ∨ y = 2 * z + 1 := ⟨y / 2, by omega⟩
    · have hl : (3 * (2 * z) + 3) &&& ((3 * (2 * z) + 3) ^^^ (2 * z + 1)) =
          2 * ((3 * z + 1) &&& ((3 * z + 1) ^^^ z)) := by
        rw [show 3 * (2 * z) + 3 = 2 * (3 * z + 1) + 1 from by ring,
          xor_double (3 * z + 1) z 1 1 (by omega) (by omega),
          show (1 : ℕ) ^^^ 1 = 0 from rfl,
          and_double (3 * z + 1) ((3 * z + 1) ^^^ z) 1 0 (by omega) (by omega),
          show (1 : ℕ) &&& 0 = 0 from rfl]
        omega
      have hr : (3 * (2 * z) + 2) &&& ((3 * (2 * z) + 2) ^^^ (2 * z)) =
          2 * ((3 * z + 1) &&& ((3 * z + 1) ^^^ z)) := by
        rw [show 3 * (2 * z) + 2 = 2 * (3 * z + 1) + 0 from by ring,
          show (2 * z : ℕ) = 2 * z + 0 from by ring,
          xor_double (3 * z + 1) z 0 0 (by omega) (by omega),
          show (0 : ℕ) ^^^ 0 = 0 from rfl,
          and_double (3 * z + 1) ((3 * z + 1) ^^^ z) 0 0 (by omega) (by omega),
          show (0 : ℕ) &&& 0 = 0 from rfl]
        omega
      rw [hl, hr]
    · have hl : (3 * (2 * z + 1) + 3) &&& ((3 * (2 * z + 1) + 3) ^^^ (2 * z + 1 + 1)) =
          2 * ((3 * z + 3) &&& ((3 * z + 3) ^^^ (z + 1))) := by
        rw [show 3 * (2 * z + 1) + 3 = 2 * (3 * z + 3) + 0 from by ring,
          show (2 * z + 1 + 1 : ℕ) = 2 * (z + 1) + 0 from by ring,
          xor_double (3 * z + 3) (z + 1) 0 0 (by omega) (by omega),
          show (0 : ℕ) ^^^ 0 = 0 from rfl,
          and_double (3 * z + 3) ((3 * z + 3) ^^^ (z + 1)) 0 0 (by omega) (by omega),
          show (0 : ℕ) &&& 0 = 0 from rfl]
        omega
      have hr : (3 * (2 * z + 1) + 2) &&& ((3 * (2 * z + 1) + 2) ^^^ (2 * z + 1)) =
          2 * ((3 * z + 2) &&& ((3 * z + 2) ^^^ z)) := by
        rw [show 3 * (2 * z + 1) + 2 = 2 * (3 * z + 2) + 1 from by ring,
          xor_double (3 * z + 2) z 1 1 (by omega) (by omega),
          show (1 : ℕ) ^^^ 1 = 0 from rfl,
          and_double (3 * z + 2) ((3 * z + 2) ^^^ z) 1 0 (by omega) (by omega),
          show (1 : ℕ) &&& 0 = 0 from rfl]
        omega
      rw [hl, hr, IH z (by omega)]

theorem L_neg (y : ℕ) :
    (y + 1) &&& ((3 * y + 3) ^^^ (y + 1)) = y &&& ((3 * y + 2) ^^^ y) := by
  induction y using Nat.strong_induction_on with
  | _ y IH =>
    obtain ⟨z, rfl | rfl⟩ : ∃ z, y = 2 * z ∨ y = 2 * z + 1 := ⟨y / 2, by omega⟩
    · have hl : (2 * z + 1) &&& ((3 * (2 * z) + 3) ^^^ (2 * z + 1)) =
          2 * (z &&& ((3 * z + 1) ^^^ z)) := by
        rw [show 3 * (2 * z) + 3 = 2 * (3 * z + 1) + 1 from by ring,
          xor_double (3 * z + 1) z 1 1 (by omega) (by omega),
          show (1 : ℕ) ^^^ 1 = 0 from rfl,
          and_double z ((3 * z + 1) ^^^ z) 1 0 (by omega) (by omega),
          show (1 : ℕ) &&& 0 = 0 from rfl]
        omega
      have hr : (2 * z) &&& ((3 * (2 * z) + 2) ^^^ (2 * z)) =
          2 * (z &&& ((3 * z + 1) ^^^ z)) := by
        rw [show 3 * (2 * z) + 2 = 2 * (3 * z + 1) + 0 from by ring,
          show (2 * z : ℕ) = 2 * z + 0 from by ring,
          xor_double (3 * z + 1) z 0 0 (by omega) (by omega),
          show (0 : ℕ) ^^^ 0 = 0 from rfl,
          and_double z ((3 * z + 1) ^^^ z) 0 0 (by omega) (by omega),
          show (0 : ℕ) &&& 0 = 0 from rfl]
        omega
      rw [hl, hr]
    · have hl : (2 * z + 1 + 1) &&& ((3 * (2 * z + 1) + 3) ^^^ (2 * z + 1 + 1)) =
          2 * ((z + 1) &&& ((3 * z + 3) ^^^ (z + 1))) := by
        rw [show 3 * (2 * z + 1) + 3 = 2 * (3 * z + 3) + 0 from by ring,
          show (2 * z + 1 + 1 : ℕ) = 2 * (z + 1) + 0 from by ring,
          xor_double (3 * z + 3) (z + 1) 0 0 (by omega) (by omega),
          show (0 : ℕ) ^^^ 0 = 0 from rfl,
          and_double (z + 1) ((3 * z + 3) ^^^ (z + 1)) 0 0 (by omega) (by omega),
          show (0 : ℕ) &&& 0 = 0 from rfl]
        omega
      have hr : (2 * z + 1) &&& ((3 * (2 * z + 1) + 2) ^^^ (2 * z + 1)) =
          2 * (z &&& ((3 * z + 2) ^^^ z)) := by
        rw [show 3 * (2 * z + 1) + 2 = 2 * (3 * z + 2) + 1 from by ring,
          xor_double (3 * z + 2) z 1 1 (by omega) (by omega),
          show (1 : ℕ) ^^^ 1 = 0 from rfl,
          and_double z ((3 * z + 2) ^^^ z) 1 0 (by omega) (by omega),
          show (1 : ℕ) &&& 0 = 0 from rfl]
        omega
      rw [hl, hr, IH z (by omega)]

def NoAdj (v : ℕ) : Prop := ∀ i, ¬(v.testBit i = true ∧ v.testBit (i + 1) = true)

theorem noAdj_double (a i : ℕ) (hi : i ≤ 1) (ha : NoAdj a)
    (h0 : i = 1 → a % 2 = 0) : NoAdj (2 * a + i) := by
  intro idx
  cases idx with
  | zero =>
    rintro ⟨h1, h2⟩
    rw [Nat.testBit_zero] at h1
    have hi1 : i = 1 := by
      have := of_decide_eq_true h1
      omega
    rw [Nat.testBit_succ, show (2 * a + i) / 2 = a from by omega,
      Nat.testBit_zero] at h2
    have h2' := of_decide_eq_true h2
    have h3 := h0 hi1
    omega
  | succ idx =>
    rintro ⟨h1, h2⟩
    rw [Nat.testBit_succ, show (2 * a + i) / 2 = a from by omega] at h1 h2
    exact ha idx ⟨h1, h2⟩

theorem noAdj_zero : NoAdj 0 := by
  intro i
  rintro ⟨h1, _⟩
  rw [Nat.zero_testBit] at h1
  exact Bool.noConfusion h1

theorem noAdj_one : NoAdj 1 :=
  noAdj_double 0 1 (by omega) noAdj_zero (fun _ => rfl)

theorem noAdj_two : NoAdj 2 :=
  noAdj_double 1 0 (by omega) noAdj_one (fun h => absurd h (by omega))

theorem noAdj_three_xor : ∀ x b, b ≤ 2 → NoAdj ((3 * x + b) ^^^ x) := by
  intro x
  induction x using Nat.strong_induction_on with
  | _ x IH =>
    intro b hb
    rcases Nat.eq_zero_or_pos x with rfl | hx
    · rw [show 3 * 0 + b = b from by ring, Nat.xor_zero]
      interval_cases b
      · exact noAdj_zero
      · exact noAdj_one
      · exact noAdj_two
    obtain ⟨z, rfl | rfl⟩ : ∃ z, x = 2 * z ∨ x = 2 * z + 1 := ⟨x / 2, by omega⟩
    · interval_cases b
      · have e : (3 * (2 * z) + 0) ^^^ (2 * z) = 2 * ((3 * z) ^^^ z) + 0 := by
          rw [show 3 * (2 * z) + 0 = 2 * (3 * z) + 0 from by ring,
            show (2 * z : ℕ) = 2 * z + 0 from by ring,
            xor_double (3 * z) z 0 0 (by omega) (by omega),
            show (0 : ℕ) ^^^ 0 = 0 from rfl]
        rw [e]
        exact noAdj_double _ 0 (by omega) (IH z (by omega) 0 (by omega))
          (fun h => absurd h (by omega))
      · have e : (3 * (2 * z) + 1) ^^^ (2 * z) = 2 * ((3 * z) ^^^ z) + 1 := by
          rw [show 3 * (2 * z) + 1 = 2 * (3 * z) + 1 from by ring,
            show (2 * z : ℕ) = 2 * z + 0 from by ring,
            xor_double (3 * z) z 1 0 (by omega) (by omega),
            show (1 : ℕ) ^^^ 0 = 1 from rfl]
        rw [e]
        refine noAdj_double _ 1 (by omega) (IH z (by omega) 0 (by omega)) ?_
        intro _
        rw [xor_mod_two]
        omega
      · have e : (3 * (2 * z) + 2) ^^^ (2 * z) = 2 * ((3 * z + 1) ^^^ z) + 0 := by
          rw [show 3 * (2 * z) + 2 = 2 * (3 * z + 1) + 0 from by ring,
            show (2 * z : ℕ) = 2 * z + 0 from by ring,
            xor_double (3 * z + 1) z 0 0 (by omega) (by omega),
            show (0 : ℕ) ^^^ 0 = 0 from rfl]
        rw [e]
        exact noAdj_double _ 0 (by omega) (IH z (by omega) 1 (by omega))
          (fun h => absurd h (by omega))
    · interval_cases b
      · have e : (3 * (2 * z + 1) + 0) ^^^ (2 * z + 1) = 2 * ((3 * z + 1) ^^^ z) + 0 := by
          rw [show 3 * (2 * z + 1) + 0 = 2 * (3 * z + 1) + 1 from by ring,
            xor_double (3 * z + 1) z 1 1 (by omega) (by omega),
            show (1 : ℕ) ^^^ 1 = 0 from rfl]
        rw [e]
        exact noAdj_double _ 0 (by omega) (IH z (by omega) 1 (by omega))
          (fun h => absurd h (by omega))
      · have e : (3 * (2 * z + 1) + 1) ^^^ (2 * z + 1) = 2 * ((3 * z + 2) ^^^ z) + 1 := by
          rw [show 3 * (2 * z + 1) + 1 = 2 * (3 * z + 2) + 0 from by ring,
            xor_double (3 * z + 2) z 0 1 (by omega) (by omega),
            show (0 : ℕ) ^^^ 1 = 1 from rfl]
        rw [e]
        refine noAdj_double _ 1 (by omega) (IH z (by omega) 2 (by omega)) ?_
        intro _
        rw [xor_mod_two]
        omega
      · have e : (3 * (2 * z + 1) + 2) ^^^ (2 * z + 1) = 2 * ((3 * z + 2) ^^^ z) + 0 := by
          rw [show 3 * (2 * z + 1) + 2 = 2 * (3 * z + 2) + 1 from by ring,
            xor_double (3 * z + 2) z 1 1 (by omega) (by omega),
            show (1 : ℕ) ^^^ 1 = 0 from rfl]
        rw [e]
        exact noAdj_double _ 0 (by omega) (IH z (by omega) 2 (by omega))
          (fun h => absurd h (by omega))

theorem xor_split256 (a b A B : ℕ) (ha : a < 256) (hb : b < 256) :
    (a + 256 * A) ^^^ (b + 256 * B) = (a ^^^ b) + 256 * (A ^^^ B) := by
  have h := xor_split 8 a b A B (by omega) (by omega)
  norm_num at h
  exact h

theorem and_split256 (a b A B : ℕ) (ha : a < 256) (hb : b < 256) :
    (a + 256 * A) &&& (b + 256 * B) = (a &&& b) + 256 * (A &&& B) := by
  have h := and_split 8 a b A B (by omega) (by omega)
  norm_num at h
  exact h

theorem xor_lt_256 (u v : ℕ) (hu : u < 256) (hv : v < 256) : u ^^^ v < 256 := by
  have := Nat.xor_lt_two_pow (show u < 2 ^ 8 from by omega)
    (show v < 2 ^ 8 from by omega)
  omega

theorem or_of_lt (a e : ℕ) (ha : a < 128) (he : e ≤ 1) :
    a ||| 128 * e = a + 128 * e := by
  rcases (by omega : e = 0 ∨ e = 1) with rfl | rfl
  · simp
  · have h := Nat.mul_add_lt_is_or (show a < 2 ^ 7 from by omega) 1
    rw [Nat.lor_comm]
    norm_num at h ⊢
    omega

theorem byte_mask_split (tK hL : ℕ) (hhL : hL < 256) (hco : tK / 256 ≤ 1) :
    (tK &&& (tK ^^^ hL)) % 256 = (tK % 256) &&& ((tK % 256) ^^^ hL) ∧
      (hL &&& (tK ^^^ hL)) % 256 = hL &&& ((tK % 256) ^^^ hL) := by
  have hxlt : (tK % 256) ^^^ hL < 256 := xor_lt_256 _ _ (by omega) hhL
  rcases (by omega : tK / 256 = 0 ∨ tK / 256 = 1) with hco0 | hco1
  · have htlt : tK < 256 := by omega
    have h1 : tK % 256 = tK := by omega
    rw [h1]
    constructor
    · exact Nat.mod_eq_of_lt (Nat.lt_of_le_of_lt Nat.and_le_left htlt)
    · exact Nat.mod_eq_of_lt (Nat.lt_of_le_of_lt Nat.and_le_left hhL)
  · have e1 : tK ^^^ hL = ((tK % 256) ^^^ hL) + 256 * 1 := by
      nth_rewrite 1 [show tK = tK % 256 + 256 * 1 from by omega]
      nth_rewrite 1 [show hL = hL + 256 * 0 from by omega]
      rw [xor_split256 _ _ _ _ (by omega) hhL,
        show (1 : ℕ) ^^^ 0 = 1 from rfl]
    constructor
    · have e2 : tK &&& (tK ^^^ hL) =
          ((tK % 256) &&& ((tK % 256) ^^^ hL)) + 256 * 1 := by
        rw [e1]
        nth_rewrite 1 [show tK = tK % 256 + 256 * 1 from by omega]
        rw [and_split256 _ _ _ _ (by omega) hxlt,
          show (1 : ℕ) &&& 1 = 1 from rfl]
      have hle : (tK % 256) &&& ((tK % 256) ^^^ hL) ≤ tK % 256 := Nat.and_le_left
      omega
    · have e3 : hL &&& (tK ^^^ hL) =
          (hL &&& ((tK % 256) ^^^ hL)) + 256 * 0 := by
        rw [e1]
        nth_rewrite 1 [show hL = hL + 256 * 0 from by omega]
        rw [and_split256 _ _ _ _ hhL hxlt,
          show (0 : ℕ) &&& 1 = 0 from rfl]
      have hle : hL &&& ((tK % 256) ^^^ hL) ≤ hL := Nat.and_le_left
      omega

theorem naf_step (b c R hL : ℕ) (hb : b < 256) (hc : c ≤ 1)
    (hcase : (hL = (b + c) / 2 + 128 * (R % 2) ∧ ¬(b + c = 256 ∧ R % 2 = 1)) ∨
      (b + c = 256 ∧ R % 2 = 1 ∧ hL = 128)) :
    ((b + c + hL) &&& ((b + c + hL) ^^^ hL)) % 256 +
        256 * ((R + (b + c + hL) / 256 + (R + (b + c + hL) / 256) / 2) &&&
          ((R + (b + c + hL) / 256 + (R + (b + c + hL) / 256) / 2) ^^^
            ((R + (b + c + hL) / 256) / 2))) =
      (b + 256 * R + c + (b + 256 * R + c) / 2) &&&
        ((b + 256 * R + c + (b + 256 * R + c) / 2) ^^^ ((b + 256 * R + c) / 2)) ∧
      (hL &&& ((b + c + hL) ^^^ hL)) % 256 +
          256 * (((R + (b + c + hL) / 256) / 2) &&&
            ((R + (b + c + hL) / 256 + (R + (b + c + hL) / 256) / 2) ^^^
              ((R + (b + c + hL) / 256) / 2))) =
        ((b + 256 * R + c) / 2) &&&
          ((b + 256 * R + c + (b + 256 * R + c) / 2) ^^^ ((b + 256 * R + c) / 2)) := by
  have hLlt : hL < 256 := by
    rcases hcase with ⟨h1, h2⟩ | ⟨h1, h2, h3⟩ <;> omega
  set tK := b + c + hL with htK
  set co := tK / 256 with hco
  set Hc := (R + co) / 2 with hHc
  set Tc := R + co + Hc with hTc
  set Hp := (b + 256 * R + c) / 2 with hHp
  set Tp := b + 256 * R + c + Hp with hTp
  have hcoLe : co ≤ 1 := by omega
  obtain ⟨hpB, hnB⟩ := byte_mask_split tK hL hLlt hcoLe
  have hxlt : (tK % 256) ^^^ hL < 256 := xor_lt_256 _ _ (by omega) hLlt
  rcases hcase with ⟨hhL, hnot⟩ | ⟨h256, hodd, hhL⟩
  · by_cases hren : co = 1 ∧ R % 2 = 1
    · obtain ⟨hco1, hRodd⟩ := hren
      have hHsplit : Hp = hL + 256 * (R / 2) := by omega
      have hTsplit : Tp = tK % 256 + 256 * (3 * (R / 2) + 2) := by omega
      have hTcv : Tc = 3 * (R / 2) + 3 := by omega
      have hHcv : Hc = R / 2 + 1 := by omega
      have hX : Tp ^^^ Hp =
          ((tK % 256) ^^^ hL) + 256 * ((3 * (R / 2) + 2) ^^^ (R / 2)) := by
        rw [hTsplit, hHsplit, xor_split256 _ _ _ _ (by omega) hLlt]
      have hP : Tp &&& (Tp ^^^ Hp) =
          ((tK % 256) &&& ((tK % 256) ^^^ hL)) +
            256 * ((3 * (R / 2) + 2) &&& ((3 * (R / 2) + 2) ^^^ (R / 2))) := by
        rw [hX, hTsplit, and_split256 _ _ _ _ (by omega) hxlt]
      have hN : Hp &&& (Tp ^^^ Hp) =
          (hL &&& ((tK % 256) ^^^ hL)) +
            256 * ((R / 2) &&& ((3 * (R / 2) + 2) ^^^ (R / 2))) := by
        rw [hX, hHsplit, and_split256 _ _ _ _ hLlt hxlt]
      constructor
      · rw [hpB, hTcv, hHcv, L_pos (R / 2), hP]
      · rw [hnB, hTcv, hHcv, L_neg (R / 2), hN]
    · have hclean : co = 0 ∨ R % 2 = 0 := by
        rcases (by omega : co = 0 ∨ co = 1) with h | h
        · exact Or.inl h
        · rcases (by omega : R % 2 = 0 ∨ R % 2 = 1) with h2 | h2
          · exact Or.inr h2
          · exact absurd ⟨h, h2⟩ hren
      have hH' : Hc = R / 2 := by
        rcases hclean with h | h <;> omega
      have hHsplit : Hp = hL + 256 * Hc := by omega
      have hTsplit : Tp = tK % 256 + 256 * Tc := by omega
      have hX : Tp ^^^ Hp = ((tK % 256) ^^^ hL) + 256 * (Tc ^^^ Hc) := by
        rw [hTsplit, hHsplit, xor_split256 _ _ _ _ (by omega) hLlt]
      have hP : Tp &&& (Tp ^^^ Hp) =
          ((tK % 256) &&& ((tK % 256) ^^^ hL)) + 256 * (Tc &&& (Tc ^^^ Hc)) := by
        rw [hX, hTsplit, and_split256 _ _ _ _ (by omega) hxlt]
      have hN : Hp &&& (Tp ^^^ Hp) =
          (hL &&& ((tK % 256) ^^^ hL)) + 256 * (Hc &&& (Tc ^^^ Hc)) := by
        rw [hX, hHsplit, and_split256 _ _ _ _ hLlt hxlt]
      exact ⟨by rw [hpB, hP], by rw [hnB, hN]⟩
  · have h384 : tK = 384 := by omega
    have hHsplit : Hp = 0 + 256 * Hc := by omega
    have hTsplit : Tp = 0 + 256 * Tc := by omega
    have hX : Tp ^^^ Hp = (0 ^^^ 0) + 256 * (Tc ^^^ Hc) := by
      rw [hTsplit, hHsplit, xor_split256 _ _ _ _ (by omega) (by omega)]
    have hP : Tp &&& (Tp ^^^ Hp) =
        (0 &&& (0 ^^^ 0)) + 256 * (Tc &&& (Tc ^^^ Hc)) := by
      rw [hX, hTsplit, and_split256 _ _ _ _ (by omega) (by decide)]
    have hN : Hp &&& (Tp ^^^ Hp) =
        (0 &&& (0 ^^^ 0)) + 256 * (Hc &&& (Tc ^^^ Hc)) := by
      rw [hX, hHsplit, and_split256 _ _ _ _ (by omega) (by decide)]
    have hpB2 : (tK &&& (tK ^^^ hL)) % 256 = 0 := by
      rw [h384, hhL]
      decide
    have hnB2 : (hL &&& (tK ^^^ hL)) % 256 = 0 := by
      rw [h384, hhL]
      decide
    constructor
    · rw [hpB2, hP, show (0 : ℕ) &&& (0 ^^^ 0) = 0 from rfl]
    · rw [hnB2, hN, show (0 : ℕ) &&& (0 ^^^ 0) = 0 from rfl]

theorem nafLoop_spec (le : List ℕ) : ∀ c, (∀ x ∈ le, x < 256) → c ≤ 1 →
    leVal (nafLoop le c).1 + (nafLoop le c).2.2 * 2 ^ (8 * le.length) =
        (leVal le + c + (leVal le + c) / 2) &&&
          ((leVal le + c + (leVal le + c) / 2) ^^^ ((leVal le + c) / 2)) ∧
      leVal (nafLoop le c).2.1 =
        ((leVal le + c) / 2) &&&
          ((leVal le + c + (leVal le + c) / 2) ^^^ ((leVal le + c) / 2)) ∧
      (nafLoop le c).2.2 ≤ 1 ∧
      (nafLoop le c).1.length = le.length ∧
      (nafLoop le c).2.1.length = le.length ∧
      (∀ x ∈ (nafLoop le c).1, x < 256) ∧
      (∀ x ∈ (nafLoop le c).2.1, x < 256) := by
  induction le with
  | nil =>
    intro c _ hc
    interval_cases c <;> simp [nafLoop, leVal]
  | cons b rest IH =>
    intro c hbytes hc
    have hb256 : b < 256 := hbytes b (List.mem_cons_self b rest)
    have hrest : ∀ x ∈ rest, x < 256 :=
      fun x hx => hbytes x (List.mem_cons_of_mem b hx)
    have hhd256 : rest.headD 0 < 256 := by
      cases rest with
      | nil => norm_num
      | cons y t => exact hrest y (List.mem_cons_self y t)
    have hR2 : leVal rest % 2 = rest.headD 0 % 2 := leVal_mod_two rest
    have hepsilon : (rest.headD 0 * 128) % 256 = 128 * (rest.headD 0 % 2) := by
      omega
    have hKval : ((b + c) / 2 ||| (rest.headD 0 * 128) % 256 =
          (b + c) / 2 + 128 * (leVal rest % 2) ∧
            ¬(b + c = 256 ∧ leVal rest % 2 = 1)) ∨
        (b + c = 256 ∧ leVal rest % 2 = 1 ∧
          (b + c) / 2 ||| (rest.headD 0 * 128) % 256 = 128) := by
      by_cases hB2 : b + c = 256 ∧ rest.headD 0 % 2 = 1
      · right
        refine ⟨hB2.1, by omega, ?_⟩
        rw [hepsilon, hB2.2, hB2.1]
        decide
      · rcases (by omega : rest.headD 0 % 2 = 0 ∨ rest.headD 0 % 2 = 1) with
          hε | hε
        · left
          constructor
          · rw [hepsilon, hR2, hε]
            simp
          · omega
        · have h255 : b + c ≤ 255 := by
            rcases (by omega : b + c ≤ 255 ∨ b + c = 256) with h | h
            · exact h
            · exact absurd ⟨h, hε⟩ hB2
          left
          constructor
          · rw [hepsilon, hR2, hε, or_of_lt _ _ (by omega) (by omega)]
          · omega
    have hstep := naf_step b c (leVal rest)
      ((b + c) / 2 ||| (rest.headD 0 * 128) % 256) hb256 hc hKval
    have hLlt : (b + c) / 2 ||| (rest.headD 0 * 128) % 256 < 256 := by
      rcases hKval with ⟨h1, _⟩ | ⟨_, _, h3⟩ <;> omega
    have hcoutLe :
        (b + c + ((b + c) / 2 ||| (rest.headD 0 * 128) % 256)) / 256 ≤ 1 := by
      omega
    obtain ⟨ih1, ih2, ihc, ihl1, ihl2, ihb1, ihb2⟩ :=
      IH ((b + c + ((b + c) / 2 ||| (rest.headD 0 * 128) % 256)) / 256)
        hrest hcoutLe
    have hpow : (2 : ℕ) ^ (8 * (rest.length + 1)) = 256 * 2 ^ (8 * rest.length) := by
      rw [show 8 * (rest.length + 1) = 8 * rest.length + 8 from by ring, pow_add]
      ring
    simp only [nafLoop, leVal, List.length_cons]
    refine ⟨?_, ?_, ihc, ?_, ?_, ?_, ?_⟩
    · rcases (by omega :
          (nafLoop rest ((b + c + ((b + c) / 2 ||| (rest.headD 0 * 128) % 256)) /
            256)).2.2 = 0 ∨
          (nafLoop rest ((b + c + ((b + c) / 2 ||| (rest.headD 0 * 128) % 256)) /
            256)).2.2 = 1) with hcf | hcf
      · rw [hcf] at ih1
        rw [hpow, hcf]
        omega
      · rw [hcf] at ih1
        rw [hpow, hcf]
        omega
    · omega
    · omega
    · omega
    · intro x hx
      rcases List.mem_cons.mp hx with rfl | hx2
      · omega
      · exact ihb1 x hx2
    · intro x hx
      rcases List.mem_cons.mp hx with rfl | hx2
      · omega
      · exact ihb2 x hx2


theorem and_or_mask (t h x : ℕ) : (t &&& x) ||| (h &&& x) = (t ||| h) &&& x := by
  apply Nat.eq_of_testBit_eq
  intro i
  rw [Nat.testBit_or, Nat.testBit_and, Nat.testBit_and, Nat.testBit_and,
    Nat.testBit_or]
  cases t.testBit i <;> cases h.testBit i <;> cases x.testBit i <;> rfl

theorem testBit_log2_self (t : ℕ) (ht : t ≠ 0) : t.testBit t.log2 = true := by
  have a1 := Nat.log2_self_le ht
  have a2 := @Nat.lt_log2_self t
  have a3 : (2 : ℕ) ^ (t.log2 + 1) = 2 ^ t.log2 * 2 := by rw [pow_succ]
  have a4 : 1 ≤ t / 2 ^ t.log2 :=
    (Nat.one_le_div_iff (Nat.pos_pow_of_pos _ (by omega))).mpr a1
  have a5 : t / 2 ^ t.log2 < 2 := Nat.div_lt_of_lt_mul (by omega)
  have e1 : t / 2 ^ t.log2 = 1 := by omega
  rw [Nat.testBit_to_div_mod, e1]
  rfl

theorem naf_spec_aux (k : List ℕ) (hk : ∀ x ∈ k, x < 256) :
    beVal (naf k).1 =
        (beVal k + beVal k / 2) &&&
          ((beVal k + beVal k / 2) ^^^ (beVal k / 2)) ∧
      beVal (naf k).2 =
        (beVal k / 2) &&&
          ((beVal k + beVal k / 2) ^^^ (beVal k / 2)) ∧
      (naf k).1.length = (naf k).2.length ∧
      ((naf k).1 ≠ [] → (naf k).1.headD 0 ≠ 0) := by
  have hksb : ∀ x ∈ k.dropWhile (· = 0), x < 256 :=
    fun x hx => hk x ((List.dropWhile_sublist _).subset hx)
  have hSb : ∀ x ∈ (k.dropWhile (· = 0)).reverse, x < 256 :=
    fun x hx => hksb x (List.mem_reverse.mp hx)
  obtain ⟨h1, h2, hcfle, hl1, hl2, hb1, hb2⟩ :=
    nafLoop_spec (k.dropWhile (· = 0)).reverse 0 hSb (by omega)
  have hW0 : leVal (k.dropWhile (· = 0)).reverse + 0 = beVal k := by
    rw [Nat.add_zero, leVal_reverse, beVal_dropWhile_zero]
  rw [hW0] at h1 h2
  have hbev : ∀ l : List ℕ, beVal l.reverse = leVal l := fun l => by
    rw [← leVal_reverse l.reverse, List.reverse_reverse]
  have hpow256 : (256 : ℕ) ^ (k.dropWhile (· = 0)).reverse.length =
      2 ^ (8 * (k.dropWhile (· = 0)).reverse.length) := by
    rw [show (256 : ℕ) = 2 ^ 8 from rfl, ← pow_mul]
  rcases (by omega :
      (nafLoop (k.dropWhile (· = 0)).reverse 0).2.2 = 0 ∨
      (nafLoop (k.dropWhile (· = 0)).reverse 0).2.2 = 1) with hc0 | hc1
  · have hnaf : naf k =
        ((nafLoop (k.dropWhile (· = 0)).reverse 0).1.reverse,
         (nafLoop (k.dropWhile (· = 0)).reverse 0).2.1.reverse) := by
      unfold naf
      rw [if_pos hc0]
    rw [hc0] at h1
    have hP : beVal (naf k).1 =
        (beVal k + beVal k / 2) &&&
          ((beVal k + beVal k / 2) ^^^ (beVal k / 2)) := by
      rw [hnaf]
      dsimp only
      rw [hbev]
      omega
    have hN : beVal (naf k).2 =
        (beVal k / 2) &&&
          ((beVal k + beVal k / 2) ^^^ (beVal k / 2)) := by
      rw [hnaf]
      dsimp only
      rw [hbev]
      omega
    refine ⟨hP, hN, ?_, ?_⟩
    · rw [hnaf]
      dsimp only
      rw [List.length_reverse, List.length_reverse, hl1, hl2]
    · -- no leading zero byte in the carry-free case
      intro hne
      intro hhead0
      -- pos = p.reverse is nonempty with head 0; bound its value
      rcases hp : (naf k).1 with _ | ⟨h0, t0⟩
      · exact hne hp
      · have hh0 : h0 = 0 := by
          rw [hp] at hhead0
          simpa using hhead0
        have hbytes : ∀ x ∈ (naf k).1, x < 256 := by
          rw [hnaf]
          dsimp only
          intro x hx
          exact hb1 x (List.mem_reverse.mp hx)
        have htb : ∀ x ∈ t0, x < 256 := by
          intro x hx
          apply hbytes
          rw [hp]
          exact List.mem_cons_of_mem _ hx
        have hlow : beVal (naf k).1 < 256 ^ t0.length := by
          rw [hp]
          show h0 * 256 ^ t0.length + beVal t0 < 256 ^ t0.length
          rw [hh0]
          have := beVal_lt t0 htb
          omega
        -- the stripped input is nonempty, so its value is at least 256^(len-1)
        have hksne : k.dropWhile (· = 0) ≠ [] := by
          intro hemp
          have hlen0 : (naf k).1.length = 0 := by
            rw [hnaf]
            show (nafLoop (k.dropWhile (· = 0)).reverse 0).1.reverse.length = 0
            rw [List.length_reverse, hl1, List.length_reverse, hemp]
            rfl
          rw [hp] at hlen0
          simp at hlen0
        have hWge : 256 ^ ((k.dropWhile (· = 0)).length - 1) ≤ beVal k := by
          have hg : (k.dropWhile (· = 0)).getD 0 0 ≠ 0 :=
            dropWhile_zero_head k hksne
          rcases hd : k.dropWhile (· = 0) with _ | ⟨d0, d1⟩
          · exact absurd hd hksne
          · rw [hd] at hg
            simp only [List.getD_cons_zero] at hg
            have := beVal_lt d1 (by
              intro x hx
              apply hksb
              rw [hd]
              exact List.mem_cons_of_mem _ hx)
            have hrw : beVal k = beVal (k.dropWhile (· = 0)) :=
              (beVal_dropWhile_zero k).symm
            rw [hrw, hd]
            show 256 ^ ((d0 :: d1).length - 1) ≤ d0 * 256 ^ d1.length + beVal d1
            simp only [List.length_cons, Nat.add_sub_cancel]
            have h1d : 1 ≤ d0 := by omega
            have := Nat.mul_le_mul_right (256 ^ d1.length) h1d
            omega
        -- length bookkeeping: t0.length = stripped length - 1
        have hlen : t0.length + 1 = (k.dropWhile (· = 0)).length := by
          have : (naf k).1.length =
              (nafLoop (k.dropWhile (· = 0)).reverse 0).1.length := by
            rw [hnaf]
            dsimp only
            rw [List.length_reverse]
          rw [hp] at this
          simp only [List.length_cons] at this
          rw [hl1, List.length_reverse] at this
          exact this
        -- the masked value keeps the top bit of T
        have hT0 : beVal k + beVal k / 2 ≠ 0 := by
          have : (1 : ℕ) ≤ 256 ^ ((k.dropWhile (· = 0)).length - 1) :=
            Nat.one_le_pow _ _ (by omega)
          omega
        have hj := testBit_log2_self _ hT0
        have hHlt : beVal k / 2 < 2 ^ (beVal k + beVal k / 2).log2 := by
          have a2 := @Nat.lt_log2_self (beVal k + beVal k / 2)
          have a3 : (2 : ℕ) ^ ((beVal k + beVal k / 2).log2 + 1) =
              2 ^ (beVal k + beVal k / 2).log2 * 2 := by rw [pow_succ]
          omega
        have hHbit : (beVal k / 2).testBit (beVal k + beVal k / 2).log2 = false :=
          Nat.testBit_lt_two_pow hHlt
        have hXbit : ((beVal k + beVal k / 2) ^^^ (beVal k / 2)).testBit
            (beVal k + beVal k / 2).log2 = true := by
          rw [Nat.testBit_xor, hj, hHbit]
          rfl
        have hPbit : (beVal (naf k).1).testBit (beVal k + beVal k / 2).log2 = true := by
          rw [hP, Nat.testBit_and, hj, hXbit]
          rfl
        have hPge : 2 ^ (beVal k + beVal k / 2).log2 ≤ beVal (naf k).1 :=
          Nat.testBit_implies_ge hPbit
        -- compare exponents
        have hexp : 8 * (t0.length) ≤ (beVal k + beVal k / 2).log2 := by
          have a2 := @Nat.lt_log2_self (beVal k + beVal k / 2)
          have ha : (256 : ℕ) ^ t0.length ≤ beVal k + beVal k / 2 := by
            have : 256 ^ ((k.dropWhile (· = 0)).length - 1) = 256 ^ t0.length := by
              rw [← hlen]
              simp
            omega
          have hb2 : (2 : ℕ) ^ (8 * t0.length) < 2 ^ ((beVal k + beVal k / 2).log2 + 1) := by
            calc (2 : ℕ) ^ (8 * t0.length) = 256 ^ t0.length := by
                  rw [show (256 : ℕ) = 2 ^ 8 from rfl, ← pow_mul]
              _ ≤ beVal k + beVal k / 2 := ha
              _ < 2 ^ ((beVal k + beVal k / 2).log2 + 1) := a2
          have := (Nat.pow_lt_pow_iff_right (by omega : (1:ℕ) < 2)).mp hb2
          omega
        have hfinal : 256 ^ t0.length ≤ beVal (naf k).1 := by
          calc (256 : ℕ) ^ t0.length = 2 ^ (8 * t0.length) := by
                rw [show (256 : ℕ) = 2 ^ 8 from rfl, ← pow_mul]
            _ ≤ 2 ^ (beVal k + beVal k / 2).log2 :=
                Nat.pow_le_pow_right (by omega) hexp
            _ ≤ beVal (naf k).1 := hPge
        omega
  · have hnaf : naf k =
        ((nafLoop (k.dropWhile (· = 0)).reverse 0).2.2 ::
           (nafLoop (k.dropWhile (· = 0)).reverse 0).1.reverse,
         0 :: (nafLoop (k.dropWhile (· = 0)).reverse 0).2.1.reverse) := by
      unfold naf
      rw [if_neg (by omega)]
    rw [hc1] at h1
    have hP : beVal (naf k).1 =
        (beVal k + beVal k / 2) &&&
          ((beVal k + beVal k / 2) ^^^ (beVal k / 2)) := by
      rw [hnaf, hc1]
      show 1 * 256 ^ (nafLoop (k.dropWhile (· = 0)).reverse 0).1.reverse.length +
          beVal (nafLoop (k.dropWhile (· = 0)).reverse 0).1.reverse = _
      rw [hbev, List.length_reverse, hl1, hpow256]
      omega
    have hN : beVal (naf k).2 =
        (beVal k / 2) &&&
          ((beVal k + beVal k / 2) ^^^ (beVal k / 2)) := by
      rw [hnaf]
      show 0 * 256 ^ (nafLoop (k.dropWhile (· = 0)).reverse 0).2.1.reverse.length +
          beVal (nafLoop (k.dropWhile (· = 0)).reverse 0).2.1.reverse = _
      rw [hbev]
      omega
    refine ⟨hP, hN, ?_, ?_⟩
    · rw [hnaf]
      simp only [List.length_cons, List.length_reverse]
      rw [hl1, hl2]
    · intro _
      rw [hnaf, hc1]
      simp

/-- C6: for every integer in [0, 2^256) given as a big-endian byte slice,
naf returns a pair (pos, neg) such that the value of pos minus the value of
neg equals the input value; pos and neg have equal length; no two adjacent
bit positions of pos OR neg are both set (the representation is a
non-adjacent form); and the returned encoding has no leading zero byte. -/
theorem naf_spec (k : List ℕ) (hk : ∀ x ∈ k, x < 256)
    (hlt : beVal k < 2 ^ 256) :
    beVal (naf k).1 = beVal (naf k).2 + beVal k ∧
      (naf k).1.length = (naf k).2.length ∧
      (∀ i, ¬((beVal (naf k).1 ||| beVal (naf k).2).testBit i = true ∧
        (beVal (naf k).1 ||| beVal (naf k).2).testBit (i + 1) = true)) ∧
      ((naf k).1 ≠ [] → (naf k).1.headD 0 ≠ 0) := by
  obtain ⟨hP, hN, hL, hH⟩ := naf_spec_aux k hk
  refine ⟨?_, hL, ?_, hH⟩
  · have hTm := t_and_mask (beVal k + beVal k / 2) (beVal k / 2)
    have hHm := h_and_mask (beVal k + beVal k / 2) (beVal k / 2)
    have hs1 := subset_xor_sum (beVal k + beVal k / 2) (beVal k / 2)
    have hs2 := subset_xor_sum (beVal k / 2) (beVal k + beVal k / 2)
    rw [Nat.and_comm (beVal k / 2) (beVal k + beVal k / 2)] at hs2
    rw [hP, hN, hTm, hHm]
    omega
  · intro i hpair
    have hor := and_or_mask (beVal k + beVal k / 2) (beVal k / 2)
      ((beVal k + beVal k / 2) ^^^ (beVal k / 2))
    have hox := or_and_xor (beVal k + beVal k / 2) (beVal k / 2)
    have hT3 : beVal k + beVal k / 2 = 3 * (beVal k / 2) + beVal k % 2 := by
      omega
    have hnoadj := noAdj_three_xor (beVal k / 2) (beVal k % 2) (by omega)
    rw [hP, hN, hor, hox] at hpair
    rw [hT3] at hpair
    exact hnoadj i hpair

/-- C6 witness: the single-byte scalar 13 = 0b1101, whose NAF is
10¯101 (pos byte 17, neg byte 4, 17 - 4 = 13). -/
theorem naf_spec_witness :
    (∀ x ∈ [13], x < 256) ∧ beVal [13] < 2 ^ 256 ∧
      beVal (naf [13]).1 = beVal (naf [13]).2 + beVal [13] :=
  ⟨by decide, by decide, (naf_spec [13] (by decide) (by decide)).1⟩
